import Mathlib

set_option maxHeartbeats 1000000

/-!
# Shallow embedding of the PSP similarity-classification engine

This file embeds the classification engine of `classify.py` (class
`simClassMap`: the greedy pass in `__init__`, and the methods `reassign`,
`sort`, `truncate`, `augment`) together with the stand-alone `PSP` function
of `PSP_minimal.py` (the same greedy pass), and proves the spec claims
about them.

Conventions of the embedding:
* numpy float similarity values become `ℚ`; comparisons are exact.
* numpy arrays become `List`s; in-bounds indexing `a[i]` becomes
  `List.getD l i d` (the callers below only read in-bounds positions,
  except where the Python code can genuinely raise, which is modelled by
  `Option`/`Except` results).
* Operations that raise (`np.max` of an empty array, `np.argmax` over an
  empty axis, an out-of-range list index, the explicit shape-mismatch
  `Exception` in `augment`) are modelled by `none` / `Except.error`;
  the infinite loop of the greedy pass when a class comes out empty
  (possible only for a threshold above every entry of a row) is also
  modelled by `none`.
* The `N×N` similarity matrix is a function `ℕ → ℕ → ℚ` together with its
  dimension `N`; it is fixed at creation time and passed unchanged to the
  methods, mirroring `self.simmat`.
-/

/-- First position of the maximum value of a list — the numpy `argmax`
convention: on ties the earliest position wins (`0` on the empty list,
where numpy raises instead; every call site below either guards the empty
case or is applied to a nonempty list). -/
def argmaxL {α : Type} [LinearOrder α] : List α → ℕ
  | [] => 0
  | x :: xs => if xs.foldr max x ≤ x then 0 else argmaxL xs + 1

/-- Maximum of a list of naturals (numpy `np.max`; `0` on the empty list,
where numpy raises — callers guard that case). -/
def listMaxN (l : List ℕ) : ℕ := l.foldr max 0

/-- `classAssigned[members] = classno`: pointwise update of the assignment
array, setting every position listed in `mem` to `c`.  `k` is the absolute
index of the head of the remaining list. -/
def assignFrom (k : ℕ) (mem : List ℕ) (c : ℕ) : List ℕ → List ℕ
  | [] => []
  | v :: vs => (if k ∈ mem then c else v) :: assignFrom (k + 1) mem c vs

/-- `mask[i].sum()` within the live sub-mask: the number of live columns
`j` with `sim i j ≥ t` (the degree of live row `i`). -/
def degreeIn (sim : ℕ → ℕ → ℚ) (t : ℚ) (live : List ℕ) (i : ℕ) : ℕ :=
  (live.filter (fun j => t ≤ sim i j)).length

/-- One iteration's prototype selection,
`cp = np.argmax(mask.sum(axis=1))` translated back through `indexMap`:
the live index at the first position of maximal degree. -/
def greedyCP (sim : ℕ → ℕ → ℚ) (t : ℚ) (live : List ℕ) : ℕ :=
  live.getD (argmaxL (live.map (degreeIn sim t live))) 0

/-- One iteration's new class, `members = indexMap[np.nonzero(mask[cp])]`:
the live indices similar to the prototype at `≥ t`, in live (ascending
original) order. -/
def greedyM (sim : ℕ → ℕ → ℚ) (t : ℚ) (live : List ℕ) : List ℕ :=
  live.filter (fun j => t ≤ sim (greedyCP sim t live) j)

/-- One iteration's surviving live set, `np.delete(indexMap, m)`: the live
indices not absorbed into the new class. -/
def greedyRest (sim : ℕ → ℕ → ℚ) (t : ℚ) (live : List ℕ) : List ℕ :=
  live.filter (fun j => ¬ t ≤ sim (greedyCP sim t live) j)

/-- The greedy classification loop of `simClassMap.__init__` /
`PSP_minimal.PSP` (`while unclassified > 0: ...`).  `live` is `indexMap`
(the original indices still unclassified, in array order); `protos`,
`membs`, `assigned`, `classno` are `classPrototypes`, `classMembers`,
`classAssigned`, `classno`.  The shrinking mask of the source is the full
mask restricted to `live` (the source's row/column deletions keep exactly
the live rows/columns).  `fuel` bounds the number of iterations; one live
index (the prototype) is classified per iteration, so `fuel = N` suffices,
and running out of fuel — or a class coming out empty, in which case the
source loops forever since nothing is deleted — yields `none`. -/
def greedyGo (sim : ℕ → ℕ → ℚ) (t : ℚ) :
    ℕ → List ℕ → List ℕ → List (List ℕ) → List ℕ → ℕ →
    Option (List ℕ × List (List ℕ) × List ℕ)
  | 0, live, protos, membs, assigned, _ =>
      if live.isEmpty then some (protos, membs, assigned) else none
  | fuel + 1, live, protos, membs, assigned, classno =>
      if live.isEmpty then some (protos, membs, assigned)
      else if (greedyM sim t live).isEmpty then none
      else
        greedyGo sim t fuel (greedyRest sim t live)
          (protos ++ [greedyCP sim t live]) (membs ++ [greedyM sim t live])
          (assignFrom 0 (greedyM sim t live) (classno + 1) assigned) (classno + 1)

/-- One class record of `self.index` (the ad hoc dict
`{'class', 'prototype', 'count', 'members', 'fraction'}`). -/
structure IndexEntry where
  cls : ℕ
  prototype : ℕ
  count : ℕ
  membersE : List ℕ
  fraction : ℚ
deriving DecidableEq

/-- Placeholder entry used as the `getD` default (all reads are in
bounds). -/
def dummyEntry : IndexEntry :=
  { cls := 0, prototype := 0, count := 0, membersE := [], fraction := 0 }

/-- The mutable state of a `simClassMap` instance: `self.thresh`,
`self.prototypes`, `self.members`, clas-assignment `self.map`,
`self.totalcount`, `self.index`.  (`self.data` and `self.simmat` are
only stored references; the matrix is passed to the methods
explicitly.) -/
structure SCM where
  thresh : ℚ
  prototypes : List ℕ
  members : List (List ℕ)
  map : List ℕ
  totalcount : ℕ
  index : List IndexEntry
deriving DecidableEq

/-- The class-index construction loop shared verbatim by `__init__` and
`reassign`: `for i in range(len(self.prototypes)): ... len(self.members[i])
...`.  It reads `members[i]` for every `i < len(prototypes)`, so it raises
(`none`) exactly when `members` is shorter than `prototypes`. -/
def mkIndex (protos : List ℕ) (membs : List (List ℕ)) (total : ℕ) :
    Option (List IndexEntry) :=
  if protos.length ≤ membs.length then
    some ((List.range protos.length).map (fun i =>
      { cls := i + 1, prototype := protos.getD i 0,
        count := (membs.getD i []).length,
        membersE := membs.getD i [],
        fraction := mkRat ((membs.getD i []).length : ℤ) total }))
  else none

/-- `simClassMap.__init__(data, simmat, thresh)` (checks disabled, as by
default): run the greedy pass over all of `0..N-1`, then build the class
index.  `PSP` of `PSP_minimal.py` is the same loop returning
`(classAssigned, classPrototypes, classMembers)` — the first three stored
fields. -/
def initSCM (sim : ℕ → ℕ → ℚ) (N : ℕ) (t : ℚ) : Option SCM :=
  match greedyGo sim t N (List.range N) [] [] (List.replicate N 0) 0 with
  | none => none
  | some (protos, membs, assigned) =>
    match mkIndex protos membs N with
    | none => none
    | some idx =>
      some { thresh := t, prototypes := protos, members := membs,
             map := assigned, totalcount := N, index := idx }

/-- For each original index `j`, `np.argmax(submat, axis=0) + 1` with
`submat = simmat[prototypes, :]`: the 1-based position of the first
prototype of maximal similarity to `j`. -/
def reassignMap (sim : ℕ → ℕ → ℚ) (protos : List ℕ) (N : ℕ) : List ℕ :=
  (List.range N).map (fun j => argmaxL (protos.map (fun p => sim p j)) + 1)

/-- `np.where(map == iclass)[0]` for `iclass = 1 .. K`: the ascending list
of positions of `map` holding each class number. -/
def membersOf (N : ℕ) (m : List ℕ) (K : ℕ) : List (List ℕ) :=
  (List.range K).map (fun c => (List.range N).filter (fun j => m.getD j 0 = c + 1))

/-- The computation of `simClassMap.reassign` as a function of the only
state it reads: the similarity matrix, `self.prototypes` and
`self.totalcount` (= the matrix dimension = `len(self.map)`).  Failure
cases of the source: `np.argmax(submat, axis=0)` raises when there are no
prototypes but columns remain; `np.max(self.map)` raises when the map is
empty (dimension 0); `self.members[i]` raises when a trailing class came
out empty (`np.max(self.map) < len(self.prototypes)`). -/
def reassignCore (sim : ℕ → ℕ → ℚ) (protos : List ℕ) (total : ℕ) :
    Option (List ℕ × List (List ℕ) × List IndexEntry) :=
  if protos.isEmpty ∧ 0 < total then none
  else if (reassignMap sim protos total).isEmpty then none
  else
    match mkIndex protos
        (membersOf total (reassignMap sim protos total)
          (listMaxN (reassignMap sim protos total))) total with
    | none => none
    | some idx =>
        some (reassignMap sim protos total,
          membersOf total (reassignMap sim protos total)
            (listMaxN (reassignMap sim protos total)), idx)

/-- `simClassMap.reassign()`: replace `self.map`, `self.members`,
`self.index`; `self.prototypes`, `self.thresh`, `self.totalcount` are
untouched. -/
def SCM.reassign (sim : ℕ → ℕ → ℚ) (s : SCM) : Option SCM :=
  match reassignCore sim s.prototypes s.totalcount with
  | none => none
  | some (newMap, membs, idx) =>
      some { s with map := newMap, members := membs, index := idx }

/-- Insertion of one entry into a descending-by-`count` list, after all
entries of `count ≥` its own — the placement Python's stable
`sorted(key=..., reverse=True)` gives an element relative to the already
sorted earlier elements. -/
def insertDesc (x : IndexEntry) : List IndexEntry → List IndexEntry
  | [] => [x]
  | y :: ys => if y.count < x.count then x :: y :: ys else y :: insertDesc x ys

/-- `sorted(self.index, key=lambda c: c['count'], reverse=True)`: stable
descending sort by `count` (insertion sort, processing entries in original
order and placing each after all earlier entries of `count ≥` its own). -/
def sortIndex (l : List IndexEntry) : List IndexEntry :=
  l.foldl (fun acc x => insertDesc x acc) []

/-- `self.index[i]['class'] = iclass` over the sorted entries: renumber
the entries `i+1, i+2, ...` in list order. -/
def renumberFrom : ℕ → List IndexEntry → List IndexEntry
  | _, [] => []
  | i, e :: es => { e with cls := i + 1 } :: renumberFrom (i + 1) es

/-- `self.map[members] = iclass` over the sorted entries: starting from a
zeroed map, write class `i+1` over the members of the `i`-th entry. -/
def writeClasses : List ℕ → List IndexEntry → ℕ → List ℕ
  | m, [], _ => m
  | m, e :: es, i => writeClasses (assignFrom 0 e.membersE (i + 1) m) es (i + 1)

/-- `simClassMap.sort()`: stable descending sort of `self.index` by count,
renumbering classes `1..K`, rebuilding `self.map` and `self.members` from
the sorted entries, and rebuilding `self.prototypes` as
`[self.prototypes[i] for i in range(len(self.index))]` — note the source
indexes `self.prototypes` by the NEW position `i`, so the prototype array
is a prefix-by-length copy of the old one, not a reordering.  The read
`self.prototypes[i]` raises (`none`) if the index is longer than the
prototype array (never the case for reachable states). -/
def SCM.sort (s : SCM) : Option SCM :=
  let sorted := sortIndex s.index
  if sorted.length ≤ s.prototypes.length then
    some { s with
      index := renumberFrom 0 sorted,
      map := writeClasses (List.replicate s.map.length 0) sorted 0,
      members := sorted.map (fun c => c.membersE),
      prototypes := s.prototypes.take sorted.length }
  else none

/-- `simClassMap.truncate(maxclasses)`: keep the first `maxclasses`
prototypes (numpy slicing clamps), then `reassign()`, then `sort()`. -/
def SCM.truncate (sim : ℕ → ℕ → ℚ) (s : SCM) (k : ℕ) : Option SCM :=
  match SCM.reassign sim { s with prototypes := s.prototypes.take k } with
  | none => none
  | some s2 => SCM.sort s2

/-- Failure modes of `simClassMap.augment`: the explicit shape-mismatch
`Exception` (carrying both reported dimensions), `np.max` of an empty
`map2` (dimension-0 secondary data), and the out-of-range read
`self.members2[i]` when a trailing class has no members. -/
inductive AugErr where
  | shapeMismatch (m1 m2 : ℕ)
  | emptyMax
  | indexError
deriving DecidableEq

/-- One entry of `self.index2`.  `membersT` models the raw value
`np.where(self.map2 == iclass)` — a 1-TUPLE containing the index array
(the source omits the `[0]` it uses everywhere else), embedded as a
singleton list containing the index list. -/
structure Aug2Entry where
  cls : ℕ
  prototype : ℕ
  count : ℕ
  membersT : List (List ℕ)
  fraction : ℚ
deriving DecidableEq

/-- Placeholder `Aug2Entry` used as a `getD` default. -/
def dummyAug2 : Aug2Entry :=
  { cls := 0, prototype := 0, count := 0, membersT := [], fraction := 0 }

/-- The secondary attributes created by `augment` (`self.prototypes2`,
`self.map2`, `self.members2`, `self.index2`).  Each element of `members2`
is the 1-tuple returned by `np.where`, i.e. a singleton list wrapping the
list of member row indices. -/
structure AugData where
  prototypes2 : List ℕ
  map2 : List ℕ
  members2 : List (List (List ℕ))
  index2 : List Aug2Entry
deriving DecidableEq

/-- `self.map2 = np.argmax(simmat2, axis=1) + 1`: per-row `argmax`
(lowest class number on ties), 1-based. -/
def augMap2 (simmat2 : List (List ℚ)) : List ℕ :=
  simmat2.map (fun row => argmaxL row + 1)

/-- `P = simmat2.shape[1]`, the number of retained classes (the length of
a row). -/
def augP (simmat2 : List (List ℚ)) : ℕ := (simmat2.getD 0 []).length

/-- `self.prototypes2 = np.argmax(simmat2, axis=0)`: per-column `argmax`
down the rows. -/
def augProtos2 (simmat2 : List (List ℚ)) : List ℕ :=
  (List.range (augP simmat2)).map
    (fun c => argmaxL (simmat2.map (fun row => row.getD c 0)))

/-- The `classMembers2` loop: for `iclass = 1 .. np.max(map2)` append the
raw `np.where(self.map2 == iclass)` — a 1-tuple wrapping the index array,
embedded as a singleton list wrapping the index list. -/
def augMembers2 (simmat2 : List (List ℚ)) : List (List (List ℕ)) :=
  (List.range (listMaxN (augMap2 simmat2))).map
    (fun i => [(List.range (augMap2 simmat2).length).filter
      (fun j => (augMap2 simmat2).getD j 0 = i + 1)])

/-- `simClassMap.augment(datafull, simmat2)` with `M = datafull.shape[0]`
and `simmat2` given as its list of `M` rows of length `P`.  The shape
check precedes every assignment; on success, `index2[i]` takes
`count = len(members2[i])` — the length of the TUPLE returned by
`np.where`, i.e. `1` — and `fraction = count / M`. -/
def augmentStep (M : ℕ) (simmat2 : List (List ℚ)) : Except AugErr AugData :=
  if M = simmat2.length then
    if (augMap2 simmat2).isEmpty then .error .emptyMax
    else if augP simmat2 ≤ (augMembers2 simmat2).length then
      .ok { prototypes2 := augProtos2 simmat2, map2 := augMap2 simmat2,
            members2 := augMembers2 simmat2,
            index2 := (List.range (augP simmat2)).map (fun i =>
              { cls := i + 1, prototype := (augProtos2 simmat2).getD i 0,
                count := ((augMembers2 simmat2).getD i []).length,
                membersT := (augMembers2 simmat2).getD i [],
                fraction := mkRat (((augMembers2 simmat2).getD i []).length : ℤ) M }) }
    else .error .indexError
  else .error (.shapeMismatch M simmat2.length)

deriving instance DecidableEq for Except

/-- The whole object state: the primary partition plus whichever
secondary attributes have been assigned so far.  Each `self.*2` attribute
exists only once its assignment statement has executed, so every field is
optional; `data2` is tracked by the only aspect the model uses, its first
dimension `M` (the array itself is opaque). -/
structure SCMFull where
  primary : SCM
  data2 : Option ℕ
  simmat2 : Option (List (List ℚ))
  prototypes2 : Option (List ℕ)
  map2 : Option (List ℕ)
  totalcount2 : Option ℕ
  members2 : Option (List (List (List ℕ)))
  index2 : Option (List Aug2Entry)
deriving DecidableEq

/-- `augment` as a state transition, with the source's assignments
applied in program order, so a raised exception leaves exactly the
attributes assigned BEFORE the raising statement:
* shape mismatch — raised before any assignment: state unchanged;
* `np.max` of an empty `map2` (dimension-0 secondary data, represented as
  the empty row list) — raised in the `classMembers2` loop header, after
  `data2`, `simmat2`, `prototypes2`, `map2` and `totalcount2` were
  assigned;
* the out-of-range `self.members2[i]` read — raised in the `index2` loop,
  after `members2` was additionally assigned, before `index2`. -/
def augmentRun (s : SCMFull) (M : ℕ) (simmat2 : List (List ℚ)) : SCMFull :=
  if M = simmat2.length then
    if (augMap2 simmat2).isEmpty then
      { s with data2 := some M, simmat2 := some simmat2,
               prototypes2 := some (augProtos2 simmat2),
               map2 := some (augMap2 simmat2), totalcount2 := some M }
    else if augP simmat2 ≤ (augMembers2 simmat2).length then
      { s with data2 := some M, simmat2 := some simmat2,
               prototypes2 := some (augProtos2 simmat2),
               map2 := some (augMap2 simmat2), totalcount2 := some M,
               members2 := some (augMembers2 simmat2),
               index2 := some ((List.range (augP simmat2)).map (fun i =>
                 { cls := i + 1, prototype := (augProtos2 simmat2).getD i 0,
                   count := ((augMembers2 simmat2).getD i []).length,
                   membersT := (augMembers2 simmat2).getD i [],
                   fraction := mkRat
                     (((augMembers2 simmat2).getD i []).length : ℤ) M })) }
    else
      { s with data2 := some M, simmat2 := some simmat2,
               prototypes2 := some (augProtos2 simmat2),
               map2 := some (augMap2 simmat2), totalcount2 := some M,
               members2 := some (augMembers2 simmat2) }
  else s

/-- Well-formedness of the similarity matrix assumed by the spec:
symmetric, values in `[0,1]`, unit diagonal. -/
def WellFormedSim (sim : ℕ → ℕ → ℚ) (N : ℕ) : Prop :=
  (∀ i < N, ∀ j < N, sim i j = sim j i) ∧
  (∀ i < N, ∀ j < N, 0 ≤ sim i j ∧ sim i j ≤ 1) ∧
  (∀ i < N, sim i i = 1)

instance (sim : ℕ → ℕ → ℚ) (N : ℕ) : Decidable (WellFormedSim sim N) := by
  unfold WellFormedSim; infer_instance

/-- Cross-consistency of the bookkeeping fields of a partition state over
`{0..N-1}`: the member lists are exactly the ascending lists of indices
holding each class number in the assignment map, the index entries carry
the member lists, every index holds a class in `1..K`, and all the
sequences have matching lengths. -/
def Consistent (N : ℕ) (s : SCM) : Prop :=
  s.totalcount = N ∧
  s.map.length = N ∧
  s.members.length = s.prototypes.length ∧
  s.index.length = s.prototypes.length ∧
  (∀ c < s.members.length,
    s.members.getD c [] = (List.range N).filter (fun j => s.map.getD j 0 = c + 1)) ∧
  (∀ c < s.index.length, (s.index.getD c dummyEntry).membersE = s.members.getD c []) ∧
  (∀ j < N, 1 ≤ s.map.getD j 0 ∧ s.map.getD j 0 ≤ s.prototypes.length) ∧
  (∀ p ∈ s.prototypes, p < N)

/-- The prototypes are pairwise below the threshold in similarity: for
`a` discovered before `b`, `sim a b < t`.  Established by the greedy pass
(each later prototype survived the earlier prototype's row filter) and
preserved by every method, since none of them reorders `self.prototypes`
(truncation takes a prefix). -/
def ProtoSep (sim : ℕ → ℕ → ℚ) (t : ℚ) (s : SCM) : Prop :=
  List.Pairwise (fun a b => sim a b < t) s.prototypes

/-- The states reachable by creating a partition and applying any
sequence of completing `reassign` / `sort` / `truncate` calls. -/
inductive Reach (sim : ℕ → ℕ → ℚ) (t : ℚ) (N : ℕ) : SCM → Prop where
  | start {s} : initSCM sim N t = some s → Reach sim t N s
  | step_reassign {s s'} : Reach sim t N s → SCM.reassign sim s = some s' →
      Reach sim t N s'
  | step_sort {s s'} : Reach sim t N s → SCM.sort s = some s' → Reach sim t N s'
  | step_truncate {s s' k} : Reach sim t N s → SCM.truncate sim s k = some s' →
      Reach sim t N s'

/-- The exact-partition property of claim C1: every index of `{0..N-1}`
lies in exactly one member set, member sets contain only valid indices,
and membership agrees with the assignment map. -/
def exactPartition (N : ℕ) (s : SCM) : Prop :=
  (∀ j < N, ∃! c, c < s.members.length ∧ j ∈ s.members.getD c []) ∧
  (∀ c < s.members.length, ∀ j ∈ s.members.getD c [], j < N) ∧
  (∀ j < N, ∀ c < s.members.length,
    (j ∈ s.members.getD c [] ↔ s.map.getD j 0 = c + 1))

/-- The 4×4 similarity matrix of the spec's concrete scenario:
`sim[0][1] = 0.9`, `sim[2][3] = 0.8`, all other off-diagonal pairs `0.1`,
diagonal `1.0`.  (Rational literals are written with `mkRat`, which the
kernel can evaluate; `mkRat a b = a / b` in `ℚ`.) -/
def sim9 : ℕ → ℕ → ℚ := fun i j =>
  if i = j then 1
  else if (i = 0 ∧ j = 1) ∨ (i = 1 ∧ j = 0) then mkRat 9 10
  else if (i = 2 ∧ j = 3) ∨ (i = 3 ∧ j = 2) then mkRat 8 10
  else mkRat 1 10

/-- The partition the greedy pass produces on `sim9` at threshold `0.5`:
two classes, prototypes `0` and `2`, members `{0,1}` and `{2,3}`,
assignment map `[1,1,2,2]`. -/
def scm9 : SCM :=
  { thresh := mkRat 1 2, prototypes := [0, 2], members := [[0, 1], [2, 3]],
    map := [1, 1, 2, 2], totalcount := 4,
    index := [{ cls := 1, prototype := 0, count := 2, membersE := [0, 1],
                fraction := mkRat 1 2 },
              { cls := 2, prototype := 2, count := 2, membersE := [2, 3],
                fraction := mkRat 1 2 }] }

/-- A 6×6 well-formed similarity matrix on which `sort()` after
`reassign()` actually has to swap two classes: pairs `(0,1) (0,2) (0,5)
(3,4)` at `0.7`, pairs `(1,3) (2,3)` at `0.9`, all other off-diagonal
pairs `0.1`, diagonal `1.0`.  At threshold `0.6` the greedy pass finds
class 1 = `{0,1,2,5}` (prototype 0) and class 2 = `{3,4}` (prototype 3);
`reassign()` then moves `1` and `2` to prototype `3`, making class 2 the
larger, so `sort()` must swap the two classes. -/
def sim6 : ℕ → ℕ → ℚ := fun i j =>
  if i = j then 1
  else if (i = 0 ∧ j = 1) ∨ (i = 1 ∧ j = 0) ∨ (i = 0 ∧ j = 2) ∨ (i = 2 ∧ j = 0) ∨
          (i = 0 ∧ j = 5) ∨ (i = 5 ∧ j = 0) ∨ (i = 3 ∧ j = 4) ∨ (i = 4 ∧ j = 3) then
    mkRat 7 10
  else if (i = 1 ∧ j = 3) ∨ (i = 3 ∧ j = 1) ∨ (i = 2 ∧ j = 3) ∨ (i = 3 ∧ j = 2) then
    mkRat 9 10
  else mkRat 1 10

/-- The `augment` result of the C3 counterexample (`M = 2`, `P = 1`, both
similarities `0.6`): both rows land in class 1, `members2[0]` is the
`np.where` tuple wrapping `[0, 1]`, yet `count = len(members2[0]) = 1`
and `fraction = 1/2`. -/
def augBug : AugData :=
  { prototypes2 := [0], map2 := [1, 1], members2 := [[[0, 1]]],
    index2 := [{ cls := 1, prototype := 0, count := 1, membersT := [[0, 1]],
                 fraction := mkRat 1 2 }] }

/-! ### Basic facts about the list helpers -/

theorem le_foldr_max {α : Type} [LinearOrder α] (x : α) (xs : List α) :
    x ≤ xs.foldr max x := by
  induction xs with
  | nil => exact le_refl x
  | cons y ys ih => exact le_trans ih (le_max_right y (ys.foldr max x))

theorem mem_le_foldr_max {α : Type} [LinearOrder α] (x : α) {xs : List α} {a : α}
    (h : a ∈ xs) : a ≤ xs.foldr max x := by
  induction xs with
  | nil => cases h
  | cons y ys ih =>
    rcases List.mem_cons.1 h with rfl | h'
    · exact le_max_left _ _
    · exact le_trans (ih h') (le_max_right _ _)

theorem foldr_max_le {α : Type} [LinearOrder α] {x y : α} {xs : List α}
    (hx : x ≤ y) (h : ∀ a ∈ xs, a ≤ y) : xs.foldr max x ≤ y := by
  induction xs with
  | nil => exact hx
  | cons z zs ih =>
    exact max_le (h z (List.mem_cons_self z zs))
      (ih fun a ha => h a (List.mem_cons_of_mem _ ha))

theorem foldr_max_mem {α : Type} [LinearOrder α] (x : α) (xs : List α) :
    xs.foldr max x = x ∨ xs.foldr max x ∈ xs := by
  induction xs with
  | nil => exact Or.inl rfl
  | cons y ys ih =>
    rcases max_choice y (ys.foldr max x) with h | h
    · right; rw [List.foldr_cons, h]; exact List.mem_cons_self _ _
    · rcases ih with h' | h'
      · left; rw [List.foldr_cons, h, h']
      · right; rw [List.foldr_cons, h]; exact List.mem_cons_of_mem _ h'

theorem getD_mem {α : Type} (d : α) {l : List α} {i : ℕ} (h : i < l.length) :
    l.getD i d ∈ l := by
  rw [List.getD_eq_getElem l d h]; exact List.getElem_mem h

theorem argmaxL_lt_length {α : Type} [LinearOrder α] {l : List α} (h : l ≠ []) :
    argmaxL l < l.length := by
  induction l with
  | nil => cases h rfl
  | cons x xs ih =>
    by_cases hc : xs.foldr max x ≤ x
    · simp [argmaxL, hc]
    · have hxs : xs ≠ [] := by rintro rfl; exact hc (le_refl x)
      simpa [argmaxL, hc] using Nat.succ_lt_succ (ih hxs)

theorem getD_le_argmaxL {α : Type} [LinearOrder α] (d : α) {l : List α} :
    ∀ i, i < l.length → l.getD i d ≤ l.getD (argmaxL l) d := by
  induction l with
  | nil => intro i hi; exact absurd hi (by simp)
  | cons x xs ih =>
    have hmem : ∀ a ∈ xs, a ≤ xs.getD (argmaxL xs) d := by
      intro a ha
      rcases List.mem_iff_getElem.1 ha with ⟨i, hi, rfl⟩
      rw [← List.getD_eq_getElem xs d hi]; exact ih i hi
    intro i hi
    by_cases hc : xs.foldr max x ≤ x
    · have hax : argmaxL (x :: xs) = 0 := by simp [argmaxL, hc]
      rw [hax]
      cases i with
      | zero => exact le_refl _
      | succ j =>
        have hj : j < xs.length := by simpa using hi
        simp only [List.getD_cons_succ, List.getD_cons_zero]
        exact le_trans (mem_le_foldr_max x (getD_mem d hj)) hc
    · have hax : argmaxL (x :: xs) = argmaxL xs + 1 := by simp [argmaxL, hc]
      rw [hax]
      cases i with
      | zero =>
        simp only [List.getD_cons_succ, List.getD_cons_zero]
        have hxlt : x < xs.foldr max x := lt_of_not_le hc
        rcases foldr_max_mem x xs with he | he
        · exact absurd he (by intro e; rw [e] at hxlt; exact lt_irrefl x hxlt)
        · exact le_of_lt (lt_of_lt_of_le hxlt (hmem _ he))
      | succ j =>
        have hj : j < xs.length := by simpa using hi
        simp only [List.getD_cons_succ]
        exact ih j hj

theorem mem_le_getD_argmaxL {α : Type} [LinearOrder α] (d : α) {l : List α} {a : α}
    (h : a ∈ l) : a ≤ l.getD (argmaxL l) d := by
  rcases List.mem_iff_getElem.1 h with ⟨i, hi, rfl⟩
  rw [← List.getD_eq_getElem l d hi]; exact getD_le_argmaxL d i hi

theorem getD_lt_argmaxL_of_lt {α : Type} [LinearOrder α] (d : α) {l : List α} :
    ∀ j, j < argmaxL l → l.getD j d < l.getD (argmaxL l) d := by
  induction l with
  | nil => intro j hj; simp [argmaxL] at hj
  | cons x xs ih =>
    intro j hj
    by_cases hc : xs.foldr max x ≤ x
    · rw [show argmaxL (x :: xs) = 0 from by simp [argmaxL, hc]] at hj
      exact absurd hj (Nat.not_lt_zero j)
    · have hax : argmaxL (x :: xs) = argmaxL xs + 1 := by simp [argmaxL, hc]
      rw [hax] at hj ⊢
      have hmem : ∀ a ∈ xs, a ≤ xs.getD (argmaxL xs) d := fun a ha =>
        mem_le_getD_argmaxL d ha
      cases j with
      | zero =>
        simp only [List.getD_cons_succ, List.getD_cons_zero]
        have hxlt : x < xs.foldr max x := lt_of_not_le hc
        rcases foldr_max_mem x xs with he | he
        · exact absurd he (by intro e; rw [e] at hxlt; exact lt_irrefl x hxlt)
        · exact lt_of_lt_of_le hxlt (hmem _ he)
      | succ j' =>
        have : j' < argmaxL xs := Nat.lt_of_succ_lt_succ hj
        simp only [List.getD_cons_succ]
        exact ih j' this

theorem argmaxL_eq_of_strict {α : Type} [LinearOrder α] (d : α) {l : List α} {c : ℕ}
    (hc : c < l.length) (h : ∀ i, i < l.length → i ≠ c → l.getD i d < l.getD c d) :
    argmaxL l = c := by
  have hne : l ≠ [] := by
    intro e; rw [e] at hc; exact absurd hc (by simp)
  have ha := argmaxL_lt_length (α := α) hne
  by_contra hne2
  exact absurd (getD_le_argmaxL d c hc) (not_le.2 (h (argmaxL l) ha hne2))

theorem mem_le_listMaxN {l : List ℕ} {a : ℕ} (h : a ∈ l) : a ≤ listMaxN l :=
  mem_le_foldr_max 0 h

theorem listMaxN_le {l : List ℕ} {B : ℕ} (h : ∀ a ∈ l, a ≤ B) : listMaxN l ≤ B :=
  foldr_max_le (Nat.zero_le B) h

theorem assignFrom_length (mem : List ℕ) (c : ℕ) :
    ∀ (l : List ℕ) (k : ℕ), (assignFrom k mem c l).length = l.length
  | [], _ => rfl
  | v :: vs, k => by
      simp only [assignFrom, List.length_cons, assignFrom_length mem c vs (k + 1)]

theorem assignFrom_getD (mem : List ℕ) (c : ℕ) :
    ∀ (l : List ℕ) (k j : ℕ), j < l.length →
      (assignFrom k mem c l).getD j 0 = if (k + j) ∈ mem then c else l.getD j 0
  | [], _, j, hj => absurd hj (by simp)
  | v :: vs, k, 0, _ => by simp [assignFrom]
  | v :: vs, k, j + 1, hj => by
      have hj' : j < vs.length := by simpa using hj
      have harith : k + 1 + j = k + (j + 1) := by omega
      simp only [assignFrom, List.getD_cons_succ]
      rw [assignFrom_getD mem c vs (k + 1) j hj', harith]

theorem getD_range_map {α : Type} (f : ℕ → α) (d : α) {n i : ℕ} (h : i < n) :
    ((List.range n).map f).getD i d = f i := by
  rw [List.getD_eq_getElem _ _ (by simpa using h), List.getElem_map, List.getElem_range]

theorem getD_map_in {α β : Type} (f : α → β) (d : β) (d' : α) {l : List α} {i : ℕ}
    (h : i < l.length) : (l.map f).getD i d = f (l.getD i d') := by
  rw [List.getD_eq_getElem _ _ (by simpa using h), List.getElem_map,
    List.getD_eq_getElem _ _ h]

theorem getD_append_left' {α : Type} (d : α) {l1 l2 : List α} {i : ℕ}
    (h : i < l1.length) : (l1 ++ l2).getD i d = l1.getD i d := by
  have h2 : i < (l1 ++ l2).length := by simp; omega
  rw [List.getD_eq_getElem _ _ h2, List.getElem_append_left h, List.getD_eq_getElem _ _ h]

theorem getD_append_last {α : Type} (d : α) (l1 : List α) (x : α) :
    (l1 ++ [x]).getD l1.length d = x := by
  have h2 : l1.length < (l1 ++ [x]).length := by simp
  rw [List.getD_eq_getElem _ _ h2, List.getElem_append_right (le_refl l1.length)]
  simp

theorem sorted_lt_eq_of_mem_iff :
    ∀ {l₁ l₂ : List ℕ}, l₁.Pairwise (· < ·) → l₂.Pairwise (· < ·) →
      (∀ x, x ∈ l₁ ↔ x ∈ l₂) → l₁ = l₂ := by
  intro l₁
  induction l₁ with
  | nil =>
    intro l₂ _ _ h
    cases l₂ with
    | nil => rfl
    | cons b l₂ => exact absurd ((h b).2 (List.mem_cons_self b l₂)) (List.not_mem_nil b)
  | cons a l₁ ih =>
    intro l₂ h₁ h₂ h
    cases l₂ with
    | nil => exact absurd ((h a).1 (List.mem_cons_self a l₁)) (List.not_mem_nil a)
    | cons b l₂ =>
      have hab : a = b := by
        rcases List.mem_cons.1 ((h a).1 (List.mem_cons_self a l₁)) with h' | h'
        · exact h'
        · rcases List.mem_cons.1 ((h b).2 (List.mem_cons_self b l₂)) with h'' | h''
          · exact h''.symm
          · have hba : b < a := (List.pairwise_cons.1 h₂).1 a h'
            have hab' : a < b := (List.pairwise_cons.1 h₁).1 b h''
            exact absurd (lt_trans hba hab') (lt_irrefl b)
      subst hab
      have hmemiff : ∀ x, x ∈ l₁ ↔ x ∈ l₂ := by
        intro x
        constructor
        · intro hx
          rcases List.mem_cons.1 ((h x).1 (List.mem_cons_of_mem a hx)) with rfl | h' 
          · exact absurd ((List.pairwise_cons.1 h₁).1 x hx) (lt_irrefl x)
          · exact h'
        · intro hx
          rcases List.mem_cons.1 ((h x).2 (List.mem_cons_of_mem a hx)) with rfl | h' 
          · exact absurd ((List.pairwise_cons.1 h₂).1 x hx) (lt_irrefl x)
          · exact h'
      rw [ih (List.pairwise_cons.1 h₁).2 (List.pairwise_cons.1 h₂).2 hmemiff]

theorem pairwise_lt_range_filter (N : ℕ) (p : ℕ → Bool) :
    ((List.range N).filter p).Pairwise (· < ·) :=
  (List.pairwise_lt_range N).filter p

/-! ### Invariants of the greedy pass -/

theorem getD_replicate_zero (N j : ℕ) : (List.replicate N (0 : ℕ)).getD j 0 = 0 := by
  induction N generalizing j with
  | zero => simp
  | succ n ih =>
    cases j with
    | zero => simp [List.replicate]
    | succ j' => simpa [List.replicate] using ih j'

theorem greedyGo_spec (sim : ℕ → ℕ → ℚ) (t : ℚ) (N : ℕ)
    (hdiag : ∀ i < N, sim i i = 1) (ht : t ≤ 1) :
    ∀ (fuel : ℕ) (live protos : List ℕ) (membs : List (List ℕ))
      (assigned : List ℕ) (classno : ℕ),
      live = (List.range N).filter (fun j => assigned.getD j 0 = 0) →
      assigned.length = N →
      membs.length = classno →
      protos.length = classno →
      (∀ c < classno, membs.getD c [] =
        (List.range N).filter (fun j => assigned.getD j 0 = c + 1)) →
      (∀ j < N, assigned.getD j 0 ≤ classno) →
      (∀ p ∈ protos, p < N) →
      (∀ p ∈ protos, ∀ j ∈ live, sim p j < t) →
      List.Pairwise (fun a b => sim a b < t) protos →
      live.length ≤ fuel →
      ∃ P M A,
        greedyGo sim t fuel live protos membs assigned classno = some (P, M, A) ∧
        A.length = N ∧ M.length = P.length ∧
        (∀ c < M.length, M.getD c [] =
          (List.range N).filter (fun j => A.getD j 0 = c + 1)) ∧
        (∀ j < N, 1 ≤ A.getD j 0 ∧ A.getD j 0 ≤ P.length) ∧
        (∀ p ∈ P, p < N) ∧
        List.Pairwise (fun a b => sim a b < t) P := by
  intro fuel
  induction fuel with
  | zero =>
    intro live protos membs assigned classno hlive hlen hml hpl hcf hbound hpN _ hpair hfuel
    have hnil : live = [] := List.length_eq_zero.1 (Nat.le_zero.1 hfuel)
    rw [hnil] at hlive
    have hdone : ∀ j < N, assigned.getD j 0 ≠ 0 := by
      intro j hj h0
      have : j ∈ ([] : List ℕ) := by
        rw [hlive, List.mem_filter]
        exact ⟨List.mem_range.2 hj, by simp only [decide_eq_true_eq]; exact h0⟩
      exact (List.not_mem_nil j) this
    refine ⟨protos, membs, assigned, ?_, hlen, hml.trans hpl.symm, ?_, ?_, hpN, hpair⟩
    · simp [greedyGo, hnil]
    · intro c hc
      exact hcf c (by rw [← hml]; exact hc)
    · intro j hj
      exact ⟨Nat.one_le_iff_ne_zero.2 (hdone j hj), by rw [hpl]; exact hbound j hj⟩
  | succ f ih =>
    intro live protos membs assigned classno hlive hlen hml hpl hcf hbound hpN hsep hpair hfuel
    by_cases hnil : live = []
    · rw [hnil] at hlive
      have hdone : ∀ j < N, assigned.getD j 0 ≠ 0 := by
        intro j hj h0
        have : j ∈ ([] : List ℕ) := by
          rw [hlive, List.mem_filter]
          exact ⟨List.mem_range.2 hj, by simp only [decide_eq_true_eq]; exact h0⟩
        exact (List.not_mem_nil j) this
      refine ⟨protos, membs, assigned, ?_, hlen, hml.trans hpl.symm, ?_, ?_, hpN, hpair⟩
      · simp [greedyGo, hnil]
      · intro c hc
        exact hcf c (by rw [← hml]; exact hc)
      · intro j hj
        exact ⟨Nat.one_le_iff_ne_zero.2 (hdone j hj), by rw [hpl]; exact hbound j hj⟩
    · -- one full iteration of the loop
      have hlive_char : ∀ j, j ∈ live ↔ (j < N ∧ assigned.getD j 0 = 0) := by
        intro j; rw [hlive, List.mem_filter, List.mem_range]; simp
      have hpos : argmaxL (live.map (degreeIn sim t live)) < live.length := by
        have hm : live.map (degreeIn sim t live) ≠ [] := by simpa using hnil
        simpa using argmaxL_lt_length hm
      have hcp_mem : greedyCP sim t live ∈ live := by
        unfold greedyCP; exact getD_mem 0 hpos
      have hcpN : greedyCP sim t live < N := ((hlive_char _).1 hcp_mem).1
      have hm_char : ∀ j, j ∈ greedyM sim t live ↔
          (j ∈ live ∧ t ≤ sim (greedyCP sim t live) j) := by
        intro j; unfold greedyM; rw [List.mem_filter]; simp
      have hcpm : greedyCP sim t live ∈ greedyM sim t live :=
        (hm_char _).2 ⟨hcp_mem, by rw [hdiag _ hcpN]; exact ht⟩
      have hmne : greedyM sim t live ≠ [] := by
        intro e; rw [e] at hcpm; exact (List.not_mem_nil _) hcpm
      have hstep : greedyGo sim t (f + 1) live protos membs assigned classno =
          greedyGo sim t f (greedyRest sim t live)
            (protos ++ [greedyCP sim t live]) (membs ++ [greedyM sim t live])
            (assignFrom 0 (greedyM sim t live) (classno + 1) assigned)
            (classno + 1) := by
        have h1 : ¬ (live.isEmpty = true) := by simp [List.isEmpty_iff, hnil]
        have h2 : ¬ ((greedyM sim t live).isEmpty = true) := by
          simp [List.isEmpty_iff, hmne]
        simp only [greedyGo]
        rw [if_neg h1, if_neg h2]
      have hgetD : ∀ j, j < N →
          (assignFrom 0 (greedyM sim t live) (classno + 1) assigned).getD j 0 =
            if j ∈ greedyM sim t live then classno + 1 else assigned.getD j 0 := by
        intro j hj
        rw [assignFrom_getD _ _ _ 0 j (by rw [hlen]; exact hj), Nat.zero_add]
      have hfilter_live : ∀ q : ℕ → Bool, live.filter q =
          (List.range N).filter (fun j => q j && decide (assigned.getD j 0 = 0)) := by
        intro q
        rw [hlive, List.filter_filter]
      have hnewlive : greedyRest sim t live =
          (List.range N).filter (fun j =>
            (assignFrom 0 (greedyM sim t live) (classno + 1) assigned).getD j 0 = 0) := by
        unfold greedyRest
        rw [hfilter_live]
        apply List.filter_congr
        intro j hj
        have hjN : j < N := List.mem_range.1 hj
        rw [hgetD j hjN]
        by_cases hjm : j ∈ greedyM sim t live
        · rw [if_pos hjm]
          have hts : t ≤ sim (greedyCP sim t live) j := ((hm_char _).1 hjm).2
          rw [decide_eq_false (not_not_intro hts), Bool.false_and,
            decide_eq_false (Nat.succ_ne_zero classno)]
        · rw [if_neg hjm]
          by_cases ha0 : assigned.getD j 0 = 0
          · have hjl : j ∈ live := (hlive_char _).2 ⟨hjN, ha0⟩
            have hnts : ¬ t ≤ sim (greedyCP sim t live) j := by
              intro hts; exact hjm ((hm_char _).2 ⟨hjl, hts⟩)
            rw [decide_eq_true hnts, Bool.true_and]
          · rw [decide_eq_false ha0, Bool.and_false]
      have hnewcf : ∀ c < classno + 1,
          (membs ++ [greedyM sim t live]).getD c [] =
            (List.range N).filter (fun j =>
              (assignFrom 0 (greedyM sim t live) (classno + 1) assigned).getD j 0
                = c + 1) := by
        intro c hc
        rcases Nat.lt_succ_iff_lt_or_eq.1 hc with hlt | rfl
        · rw [getD_append_left' [] (by rw [hml]; exact hlt), hcf c hlt]
          apply List.filter_congr
          intro j hj
          have hjN : j < N := List.mem_range.1 hj
          rw [hgetD j hjN]
          by_cases hjm : j ∈ greedyM sim t live
          · rw [if_pos hjm]
            have ha0 : assigned.getD j 0 = 0 := ((hlive_char _).1 ((hm_char _).1 hjm).1).2
            have hne1 : ¬ ((0 : ℕ) = c + 1) := by omega
            have hne2 : ¬ (classno + 1 = c + 1) := by omega
            rw [ha0, decide_eq_false hne1, decide_eq_false hne2]
          · rw [if_neg hjm]
        · have hmeq : greedyM sim t live =
              (List.range N).filter (fun j =>
                decide (t ≤ sim (greedyCP sim t live) j) &&
                  decide (assigned.getD j 0 = 0)) := by
            unfold greedyM
            rw [hfilter_live]
          conv_lhs => rw [← hml]
          rw [getD_append_last]
          conv_lhs => rw [hmeq]
          apply List.filter_congr
          intro j hj
          have hjN : j < N := List.mem_range.1 hj
          rw [hgetD j hjN]
          by_cases hjm : j ∈ greedyM sim t live
          · rw [if_pos hjm]
            have hts : t ≤ sim (greedyCP sim t live) j := ((hm_char _).1 hjm).2
            have ha0 : assigned.getD j 0 = 0 := ((hlive_char _).1 ((hm_char _).1 hjm).1).2
            rw [decide_eq_true hts, decide_eq_true ha0, Bool.true_and,
              decide_eq_true rfl]
          · rw [if_neg hjm]
            have hne : ¬ (assigned.getD j 0 = c + 1) := by
              have := hbound j hjN; omega
            by_cases ha0 : assigned.getD j 0 = 0
            · have hjl : j ∈ live := (hlive_char _).2 ⟨hjN, ha0⟩
              have hnts : ¬ t ≤ sim (greedyCP sim t live) j := by
                intro hts; exact hjm ((hm_char _).2 ⟨hjl, hts⟩)
              rw [decide_eq_false hnts, Bool.false_and, decide_eq_false hne]
            · rw [decide_eq_false ha0, Bool.and_false, decide_eq_false hne]
      have hnewbound : ∀ j < N,
          (assignFrom 0 (greedyM sim t live) (classno + 1) assigned).getD j 0
            ≤ classno + 1 := by
        intro j hj
        rw [hgetD j hj]
        by_cases hjm : j ∈ greedyM sim t live
        · simp [hjm]
        · simp only [hjm, if_false]
          exact le_trans (hbound j hj) (Nat.le_succ classno)
      have hnewpN : ∀ p ∈ protos ++ [greedyCP sim t live], p < N := by
        intro p hp
        rcases List.mem_append.1 hp with h | h
        · exact hpN p h
        · rw [List.mem_singleton.1 h]; exact hcpN
      have hrest_sub : ∀ j ∈ greedyRest sim t live, j ∈ live := by
        intro j hj; exact List.mem_of_mem_filter hj
      have hnewsep : ∀ p ∈ protos ++ [greedyCP sim t live],
          ∀ j ∈ greedyRest sim t live, sim p j < t := by
        intro p hp j hj
        rcases List.mem_append.1 hp with h | h
        · exact hsep p h j (hrest_sub j hj)
        · rw [List.mem_singleton.1 h]
          have := (List.mem_filter.1 hj).2
          simp only [decide_eq_true_eq] at this
          exact lt_of_not_le this
      have hnewpair : List.Pairwise (fun a b => sim a b < t)
          (protos ++ [greedyCP sim t live]) := by
        rw [List.pairwise_append]
        exact ⟨hpair, List.pairwise_singleton _ _,
          fun a ha b hb => by
            rw [List.mem_singleton.1 hb]; exact hsep a ha _ hcp_mem⟩
      have hlt : (greedyRest sim t live).length < live.length := by
        unfold greedyRest
        rw [List.length_filter_lt_length_iff_exists]
        refine ⟨greedyCP sim t live, hcp_mem, ?_⟩
        simp only [decide_eq_true_eq, Decidable.not_not]
        rw [hdiag _ hcpN]; exact ht
      obtain ⟨P, M, A, hrun, h1, h2, h3, h4, h5, h6⟩ :=
        ih (greedyRest sim t live) (protos ++ [greedyCP sim t live])
          (membs ++ [greedyM sim t live])
          (assignFrom 0 (greedyM sim t live) (classno + 1) assigned) (classno + 1)
          hnewlive (by rw [assignFrom_length]; exact hlen)
          (by simp [hml]) (by simp [hpl]) hnewcf hnewbound hnewpN hnewsep hnewpair
          (by omega)
      exact ⟨P, M, A, by rw [hstep]; exact hrun, h1, h2, h3, h4, h5, h6⟩

/-! ### Consistency of creation -/

theorem mkIndex_spec {protos : List ℕ} {membs : List (List ℕ)} {total : ℕ}
    {idx : List IndexEntry} (h : mkIndex protos membs total = some idx) :
    protos.length ≤ membs.length ∧ idx.length = protos.length ∧
    ∀ c < protos.length,
      (idx.getD c dummyEntry).membersE = membs.getD c [] ∧
      (idx.getD c dummyEntry).cls = c + 1 ∧
      (idx.getD c dummyEntry).prototype = protos.getD c 0 ∧
      (idx.getD c dummyEntry).count = (membs.getD c []).length := by
  unfold mkIndex at h
  by_cases hle : protos.length ≤ membs.length
  · rw [if_pos hle] at h
    have hidx := Option.some.inj h
    subst hidx
    refine ⟨hle, by simp, ?_⟩
    intro c hc
    rw [getD_range_map _ _ hc]
    exact ⟨rfl, rfl, rfl, rfl⟩
  · rw [if_neg hle] at h; cases h

theorem initSCM_spec {sim : ℕ → ℕ → ℚ} {N : ℕ} {t : ℚ} {s : SCM}
    (hdiag : ∀ i < N, sim i i = 1) (ht : t ≤ 1)
    (h : initSCM sim N t = some s) :
    Consistent N s ∧ ProtoSep sim t s := by
  have hlive : List.range N =
      (List.range N).filter (fun j => (List.replicate N (0 : ℕ)).getD j 0 = 0) := by
    symm
    apply List.filter_eq_self.2
    intro a _
    rw [getD_replicate_zero]
    exact decide_eq_true rfl
  obtain ⟨P, M, A, hrun, h1, h2, h3, h4, h5, h6⟩ :=
    greedyGo_spec sim t N hdiag ht N (List.range N) [] [] (List.replicate N 0) 0
      hlive (by simp) rfl rfl
      (by intro c hc; exact absurd hc (Nat.not_lt_zero c))
      (by intro j hj; rw [getD_replicate_zero])
      (by intro p hp; cases hp)
      (by intro p hp j hj; cases hp)
      List.Pairwise.nil (le_of_eq (List.length_range N))
  unfold initSCM at h
  split at h
  · exact absurd h (by simp)
  next protos membs assigned heq =>
    rw [hrun] at heq
    have htup := Option.some.inj heq
    injection htup with hP htup2
    injection htup2 with hM hA
    subst hP; subst hM; subst hA
    split at h
    · exact absurd h (by simp)
    next idx hm =>
      obtain ⟨hle, hil, hic⟩ := mkIndex_spec hm
      have hs : { thresh := t, prototypes := P, members := M, map := A,
                  totalcount := N, index := idx : SCM } = s := Option.some.inj h
      subst hs
      refine ⟨⟨rfl, h1, h2, hil, h3, ?_, h4, h5⟩, h6⟩
      intro c hc
      rw [hil] at hc
      exact (hic c hc).1

/-! ### Reassignment -/

theorem pairwise_getD {α : Type} (d : α) {R : α → α → Prop} {l : List α}
    (h : List.Pairwise R l) {i j : ℕ} (hi : i < l.length) (hj : j < l.length)
    (hij : i < j) : R (l.getD i d) (l.getD j d) := by
  rw [List.getD_eq_getElem _ _ hi, List.getD_eq_getElem _ _ hj]
  exact List.pairwise_iff_get.1 h ⟨i, hi⟩ ⟨j, hj⟩ (Fin.mk_lt_mk.2 hij)

theorem reassignMap_length (sim : ℕ → ℕ → ℚ) (protos : List ℕ) (N : ℕ) :
    (reassignMap sim protos N).length = N := by
  unfold reassignMap; simp

theorem reassignMap_getD (sim : ℕ → ℕ → ℚ) (protos : List ℕ) {N j : ℕ}
    (hj : j < N) : (reassignMap sim protos N).getD j 0 =
      argmaxL (protos.map (fun p => sim p j)) + 1 := by
  unfold reassignMap; rw [getD_range_map _ _ hj]

/-- Each prototype is its own unique nearest prototype: in the column of
`protos.getD c 0`, the first maximal row is row `c` itself, because its
similarity to itself is `1` while every other prototype's similarity to it
is below the threshold `t ≤ 1`. -/
theorem reassign_col_self {sim : ℕ → ℕ → ℚ} {N : ℕ} {t : ℚ} {protos : List ℕ}
    (hsym : ∀ i < N, ∀ j < N, sim i j = sim j i)
    (hdiag : ∀ i < N, sim i i = 1) (ht : t ≤ 1)
    (hpair : List.Pairwise (fun a b => sim a b < t) protos)
    (hpN : ∀ p ∈ protos, p < N) {c : ℕ} (hc : c < protos.length) :
    argmaxL (protos.map (fun p => sim p (protos.getD c 0))) = c := by
  have hcN : protos.getD c 0 < N := hpN _ (getD_mem 0 hc)
  apply argmaxL_eq_of_strict (0 : ℚ)
  · simpa using hc
  · intro i hi hne
    have hi' : i < protos.length := by simpa using hi
    have hiN : protos.getD i 0 < N := hpN _ (getD_mem 0 hi')
    rw [getD_map_in _ 0 0 hi', getD_map_in _ 0 0 hc, hdiag _ hcN]
    rcases Nat.lt_or_ge i c with hic | hge
    · exact lt_of_lt_of_le (pairwise_getD 0 hpair hi' hc hic) ht
    · have hci : c < i := lt_of_le_of_ne hge (Ne.symm hne)
      rw [hsym _ hiN _ hcN]
      exact lt_of_lt_of_le (pairwise_getD 0 hpair hc hi' hci) ht

theorem membersOf_length (N : ℕ) (m : List ℕ) (K : ℕ) :
    (membersOf N m K).length = K := by
  unfold membersOf; simp

theorem membersOf_getD (N : ℕ) (m : List ℕ) {K c : ℕ} (hc : c < K) :
    (membersOf N m K).getD c [] =
      (List.range N).filter (fun j => m.getD j 0 = c + 1) := by
  unfold membersOf; rw [getD_range_map _ _ hc]

theorem reassignCore_spec {sim : ℕ → ℕ → ℚ} {protos : List ℕ} {total : ℕ}
    {newMap : List ℕ} {membs : List (List ℕ)} {idx : List IndexEntry}
    (h : reassignCore sim protos total = some (newMap, membs, idx)) :
    newMap = reassignMap sim protos total ∧
    newMap.length = total ∧
    membs.length = protos.length ∧
    idx.length = protos.length ∧
    (∀ c < membs.length, membs.getD c [] =
      (List.range total).filter (fun j => newMap.getD j 0 = c + 1)) ∧
    (∀ c < idx.length, (idx.getD c dummyEntry).membersE = membs.getD c []) ∧
    (∀ j < total, 1 ≤ newMap.getD j 0 ∧ newMap.getD j 0 ≤ protos.length) := by
  unfold reassignCore at h
  split at h
  · exact absurd h (by simp)
  next hguard =>
    split at h
    · exact absurd h (by simp)
    next hne =>
      split at h
      · exact absurd h (by simp)
      next idx' hmk =>
        have htup := Option.some.inj h
        injection htup with hnm htup2
        injection htup2 with hmb hidx
        subst hnm; subst hmb; subst hidx
        have hlen := reassignMap_length sim protos total
        have htpos : 0 < total := by
          by_contra h0
          have : total = 0 := by omega
          subst this
          exact hne (by simp [List.isEmpty_iff, List.length_eq_zero.1 hlen])
        have hpne : protos ≠ [] := by
          intro e
          exact hguard ⟨by simp [e], htpos⟩
        have hval : ∀ j < total,
            (reassignMap sim protos total).getD j 0 ≤ protos.length := by
          intro j hj
          rw [reassignMap_getD sim protos hj]
          have : argmaxL (protos.map (fun p => sim p j)) <
              (protos.map (fun p => sim p j)).length :=
            argmaxL_lt_length (by simpa using hpne)
          rw [List.length_map] at this
          omega
        have hK : listMaxN (reassignMap sim protos total) ≤ protos.length := by
          apply listMaxN_le
          intro a ha
          unfold reassignMap at ha
          rcases List.mem_map.1 ha with ⟨j, hj, rfl⟩
          have hj' : j < total := List.mem_range.1 hj
          have := hval j hj'
          rwa [reassignMap_getD sim protos hj'] at this
        obtain ⟨hle, hil, hic⟩ := mkIndex_spec hmk
        rw [membersOf_length] at hle
        have hKeq : listMaxN (reassignMap sim protos total) = protos.length :=
          le_antisymm hK hle
        refine ⟨rfl, hlen, ?_, hil, ?_, ?_, ?_⟩
        · rw [membersOf_length, hKeq]
        · intro c hc
          rw [membersOf_length, hKeq] at hc
          exact membersOf_getD total _ (by rw [hKeq]; exact hc)
        · intro c hc
          rw [hil] at hc
          exact (hic c hc).1
        · intro j hj
          constructor
          · rw [reassignMap_getD sim protos hj]; omega
          · exact hval j hj

theorem reassign_pres {sim : ℕ → ℕ → ℚ} {N : ℕ} {s s' : SCM}
    (htot : s.totalcount = N) (hpN : ∀ p ∈ s.prototypes, p < N)
    (h : SCM.reassign sim s = some s') :
    Consistent N s' ∧ s'.prototypes = s.prototypes ∧ s'.totalcount = N ∧
      s'.thresh = s.thresh ∧
      s'.map = reassignMap sim s.prototypes s.totalcount := by
  unfold SCM.reassign at h
  split at h
  · exact absurd h (by simp)
  next newMap membs idx heq =>
    obtain ⟨hnm, hlen, hmb, hil, hmf, him, hbd⟩ := reassignCore_spec heq
    have hs : { s with map := newMap, members := membs, index := idx } = s' :=
      Option.some.inj h
    subst hs
    rw [htot] at hlen hmf hbd
    exact ⟨⟨htot, hlen, hmb, hil, hmf, him, hbd, hpN⟩, rfl, htot, rfl, hnm⟩

theorem reassignCore_total {sim : ℕ → ℕ → ℚ} {N : ℕ} {t : ℚ} {protos : List ℕ}
    (hsym : ∀ i < N, ∀ j < N, sim i j = sim j i)
    (hdiag : ∀ i < N, sim i i = 1) (ht : t ≤ 1)
    (hpair : List.Pairwise (fun a b => sim a b < t) protos)
    (hpN : ∀ p ∈ protos, p < N) (hne : protos ≠ []) :
    ∃ r, reassignCore sim protos N = some r := by
  have hplen : 0 < protos.length := List.length_pos.2 hne
  have hN : 0 < N := by
    have := hpN _ (getD_mem 0 hplen)
    omega
  have hlen := reassignMap_length sim protos N
  have hKge : protos.length ≤ listMaxN (reassignMap sim protos N) := by
    have hc : protos.length - 1 < protos.length := by omega
    have hcol := reassign_col_self hsym hdiag ht hpair hpN hc
    have hpN' : protos.getD (protos.length - 1) 0 < N := hpN _ (getD_mem 0 hc)
    have hv : (reassignMap sim protos N).getD (protos.getD (protos.length - 1) 0) 0
        = protos.length := by
      rw [reassignMap_getD sim protos hpN', hcol]
      omega
    have hmem : (protos.length : ℕ) ∈ reassignMap sim protos N := by
      rw [← hv]
      exact getD_mem 0 (by rw [hlen]; exact hpN')
    exact mem_le_listMaxN hmem
  unfold reassignCore
  rw [if_neg (by
    intro hand
    exact hne (List.isEmpty_iff.1 hand.1))]
  rw [if_neg (by
    simp only [List.isEmpty_iff]
    intro e
    have h0 : (reassignMap sim protos N).length = 0 := by rw [e]; rfl
    rw [hlen] at h0
    omega)]
  have hmk : ∃ idx, mkIndex protos
      (membersOf N (reassignMap sim protos N)
        (listMaxN (reassignMap sim protos N))) N = some idx := by
    unfold mkIndex
    rw [if_pos (by rw [membersOf_length]; exact hKge)]
    exact ⟨_, rfl⟩
  obtain ⟨idx, hmk⟩ := hmk
  rw [hmk]
  exact ⟨_, rfl⟩

/-! ### Sorting -/

theorem insertDesc_perm (x : IndexEntry) :
    ∀ l : List IndexEntry, List.Perm (insertDesc x l) (x :: l)
  | [] => List.Perm.refl _
  | y :: ys => by
      unfold insertDesc
      by_cases h : y.count < x.count
      · rw [if_pos h]
      · rw [if_neg h]
        exact ((insertDesc_perm x ys).cons y).trans (List.Perm.swap x y ys)

theorem sortIndex_fold_perm : ∀ (l acc : List IndexEntry),
    List.Perm (l.foldl (fun a x => insertDesc x a) acc) (l ++ acc)
  | [], acc => by simp
  | x :: xs, acc => by
      simp only [List.foldl_cons, List.cons_append]
      exact (sortIndex_fold_perm xs (insertDesc x acc)).trans
        ((List.Perm.append_left xs (insertDesc_perm x acc)).trans List.perm_middle)

theorem sortIndex_perm (l : List IndexEntry) : List.Perm (sortIndex l) l := by
  unfold sortIndex
  have h := sortIndex_fold_perm l []
  simpa using h

theorem renumberFrom_length : ∀ (l : List IndexEntry) (i : ℕ),
    (renumberFrom i l).length = l.length
  | [], _ => rfl
  | e :: es, i => by simp [renumberFrom, renumberFrom_length es (i + 1)]

theorem renumberFrom_getD : ∀ (l : List IndexEntry) (i c : ℕ), c < l.length →
    (renumberFrom i l).getD c dummyEntry =
      { l.getD c dummyEntry with cls := i + c + 1 }
  | [], _, c, hc => absurd hc (by simp)
  | e :: es, i, 0, _ => by simp [renumberFrom]
  | e :: es, i, c + 1, hc => by
      have hc' : c < es.length := by simpa using hc
      simp only [renumberFrom, List.getD_cons_succ]
      rw [renumberFrom_getD es (i + 1) c hc']
      have harith : i + 1 + c + 1 = i + (c + 1) + 1 := by omega
      rw [harith]

theorem writeClasses_length : ∀ (es : List IndexEntry) (m : List ℕ) (i : ℕ),
    (writeClasses m es i).length = m.length
  | [], _, _ => rfl
  | e :: es, m, i => by
      simp only [writeClasses]
      rw [writeClasses_length es _ (i + 1), assignFrom_length]

theorem writeClasses_getD_notmem : ∀ (es : List IndexEntry) (m : List ℕ) (i j : ℕ),
    j < m.length → (∀ e ∈ es, j ∉ e.membersE) →
    (writeClasses m es i).getD j 0 = m.getD j 0
  | [], _, _, _, _, _ => rfl
  | e :: es, m, i, j, hj, hmem => by
      simp only [writeClasses]
      rw [writeClasses_getD_notmem es _ (i + 1) j
        (by rw [assignFrom_length]; exact hj)
        (fun e' he' => hmem e' (List.mem_cons_of_mem _ he'))]
      rw [assignFrom_getD _ _ _ 0 j hj, Nat.zero_add,
        if_neg (hmem e (List.mem_cons_self _ _))]

theorem writeClasses_getD_mem : ∀ (es : List IndexEntry) (m : List ℕ) (i c j : ℕ),
    c < es.length → j < m.length →
    j ∈ (es.getD c dummyEntry).membersE →
    (∀ c' < es.length, c' ≠ c → j ∉ (es.getD c' dummyEntry).membersE) →
    (writeClasses m es i).getD j 0 = i + c + 1
  | [], _, _, c, _, hc, _, _, _ => absurd hc (by simp)
  | e :: es, m, i, 0, j, _, hj, hjm, hdisj => by
      simp only [writeClasses]
      have hnot : ∀ e' ∈ es, j ∉ e'.membersE := by
        intro e' he'
        rcases List.mem_iff_getElem.1 he' with ⟨k, hk, rfl⟩
        have hk2 : k + 1 < (e :: es).length := by simpa using Nat.succ_lt_succ hk
        have h3 := hdisj (k + 1) hk2 (Nat.succ_ne_zero k)
        rw [List.getD_cons_succ, List.getD_eq_getElem _ _ hk] at h3
        exact h3
      rw [writeClasses_getD_notmem es _ (i + 1) j
        (by rw [assignFrom_length]; exact hj) hnot]
      rw [assignFrom_getD _ _ _ 0 j hj, Nat.zero_add,
        if_pos (by simpa using hjm)]
  | e :: es, m, i, c + 1, j, hc, hj, hjm, hdisj => by
      simp only [writeClasses]
      have hc' : c < es.length := by simpa using hc
      have hjm' : j ∈ (es.getD c dummyEntry).membersE := by simpa using hjm
      have hdisj' : ∀ c' < es.length, c' ≠ c →
          j ∉ (es.getD c' dummyEntry).membersE := by
        intro c' hc'' hne
        have hc2 : c' + 1 < (e :: es).length := by simpa using Nat.succ_lt_succ hc''
        have := hdisj (c' + 1) hc2 (by omega)
        simpa using this
      rw [writeClasses_getD_mem es _ (i + 1) c j hc'
        (by rw [assignFrom_length]; exact hj) hjm' hdisj']
      omega

theorem sort_pres {N : ℕ} {s s' : SCM} (hcons : Consistent N s)
    (h : SCM.sort s = some s') :
    Consistent N s' ∧ s'.prototypes = s.prototypes ∧ s'.totalcount = N ∧
      s'.thresh = s.thresh ∧ s'.members.length = s.members.length := by
  obtain ⟨htot, hmaplen, hmemlen, hidxlen, hmf, him, hbd, hpN⟩ := hcons
  have hperm := sortIndex_perm s.index
  have hslen : (sortIndex s.index).length = s.index.length := hperm.length_eq
  unfold SCM.sort at h
  rw [if_pos (by rw [hslen, hidxlen])] at h
  have hs := Option.some.inj h
  have hidx_map : s.index.map (fun e => e.membersE) = s.members := by
    apply List.ext_getElem
    · rw [List.length_map, hidxlen, hmemlen]
    · intro i h1 h2
      rw [List.getElem_map]
      have hi : i < s.index.length := by simpa using h1
      rw [← List.getD_eq_getElem s.index dummyEntry hi,
        ← List.getD_eq_getElem s.members [] h2]
      exact him i hi
  have hmsperm : List.Perm ((sortIndex s.index).map (fun e => e.membersE))
      s.members := by
    have hp := hperm.map (fun e => e.membersE)
    rwa [hidx_map] at hp
  have hmslen : ((sortIndex s.index).map (fun e => e.membersE)).length
      = (sortIndex s.index).length := List.length_map _ _
  have hms_elem : ∀ c < (sortIndex s.index).length, ∃ c0 < s.members.length,
      ((sortIndex s.index).map (fun e => e.membersE)).getD c []
        = s.members.getD c0 [] := by
    intro c hc
    have hmem : ((sortIndex s.index).map (fun e => e.membersE)).getD c [] ∈
        ((sortIndex s.index).map (fun e => e.membersE)) :=
      getD_mem [] (by rw [hmslen]; exact hc)
    have hmem2 := (hmsperm.mem_iff).1 hmem
    rcases List.mem_iff_getElem.1 hmem2 with ⟨c0, hc0, hceq⟩
    exact ⟨c0, hc0, by rw [← hceq, List.getD_eq_getElem _ _ hc0]⟩
  have hdisj_old : List.Pairwise (fun l1 l2 : List ℕ => ∀ x ∈ l1, x ∉ l2)
      s.members := by
    rw [List.pairwise_iff_get]
    intro i j hij
    intro x hxi hxj
    have hieq : s.members.get i = s.members.getD i.val [] := by
      rw [List.getD_eq_getElem _ _ i.isLt, List.get_eq_getElem]
    have hjeq : s.members.get j = s.members.getD j.val [] := by
      rw [List.getD_eq_getElem _ _ j.isLt, List.get_eq_getElem]
    rw [hieq, hmf i.val i.isLt, List.mem_filter] at hxi
    rw [hjeq, hmf j.val j.isLt, List.mem_filter] at hxj
    have h1 := hxi.2
    have h2 := hxj.2
    simp only [decide_eq_true_eq] at h1 h2
    have : i.val < j.val := hij
    omega
  have hdisj_ms : List.Pairwise (fun l1 l2 : List ℕ => ∀ x ∈ l1, x ∉ l2)
      ((sortIndex s.index).map (fun e => e.membersE)) := by
    have hsymm : Symmetric (fun l1 l2 : List ℕ => ∀ x ∈ l1, x ∉ l2) := by
      intro a b hab x hxb hxa
      exact hab x hxa hxb
    exact (List.Perm.pairwise_iff (fun hab x hxb hxa => hab x hxa hxb)
      hmsperm).2 hdisj_old
  have hcover : ∀ j < N, ∃ c < (sortIndex s.index).length,
      j ∈ ((sortIndex s.index).map (fun e => e.membersE)).getD c [] := by
    intro j hj
    obtain ⟨hb1, hb2⟩ := hbd j hj
    have hc0 : s.map.getD j 0 - 1 < s.members.length := by rw [hmemlen]; omega
    have hjmem : j ∈ s.members.getD (s.map.getD j 0 - 1) [] := by
      rw [hmf _ hc0, List.mem_filter]
      refine ⟨List.mem_range.2 hj, ?_⟩
      simp only [decide_eq_true_eq]
      omega
    have hin_ms : s.members.getD (s.map.getD j 0 - 1) [] ∈
        ((sortIndex s.index).map (fun e => e.membersE)) :=
      (hmsperm.mem_iff).2 (getD_mem [] hc0)
    rcases List.mem_iff_getElem.1 hin_ms with ⟨c, hc, hceq⟩
    refine ⟨c, by rw [← hmslen]; exact hc, ?_⟩
    rw [List.getD_eq_getElem _ _ hc, hceq]
    exact hjmem
  have hms_getD_in : ∀ c < (sortIndex s.index).length,
      ((sortIndex s.index).map (fun e => e.membersE)).getD c [] =
        ((sortIndex s.index).getD c dummyEntry).membersE :=
    fun c hc => getD_map_in _ [] dummyEntry hc
  have hwrite : ∀ c < (sortIndex s.index).length, ∀ j < N,
      j ∈ ((sortIndex s.index).map (fun e => e.membersE)).getD c [] →
      (writeClasses (List.replicate s.map.length 0) (sortIndex s.index) 0).getD j 0
        = c + 1 := by
    intro c hc j hj hjm
    have hwl := writeClasses_getD_mem (sortIndex s.index)
      (List.replicate s.map.length 0) 0 c j hc
      (by rw [List.length_replicate, hmaplen]; exact hj)
      (by rw [← hms_getD_in c hc]; exact hjm)
      (by
        intro c' hc' hne hmem'
        rw [← hms_getD_in c' hc'] at hmem'
        rcases Nat.lt_or_ge c' c with hlt | hge
        · exact (pairwise_getD [] hdisj_ms (by rw [hmslen]; omega)
            (by rw [hmslen]; exact hc) hlt) j hmem' hjm
        · have hcc : c < c' := by omega
          exact (pairwise_getD [] hdisj_ms (by rw [hmslen]; exact hc)
            (by rw [hmslen]; exact hc') hcc) j hjm hmem')
    rw [hwl]
    omega
  have hms_shape : ∀ c < (sortIndex s.index).length,
      (((sortIndex s.index).map (fun e => e.membersE)).getD c []).Pairwise (· < ·) ∧
      (∀ x ∈ ((sortIndex s.index).map (fun e => e.membersE)).getD c [], x < N) := by
    intro c hc
    obtain ⟨c0, hc0, heq⟩ := hms_elem c hc
    rw [heq, hmf c0 hc0]
    refine ⟨pairwise_lt_range_filter N _, ?_⟩
    intro x hx
    exact List.mem_range.1 (List.mem_of_mem_filter hx)
  have hmf' : ∀ c < (sortIndex s.index).length,
      ((sortIndex s.index).map (fun e => e.membersE)).getD c [] =
        (List.range N).filter (fun j =>
          (writeClasses (List.replicate s.map.length 0) (sortIndex s.index) 0).getD j 0
            = c + 1) := by
    intro c hc
    apply sorted_lt_eq_of_mem_iff (hms_shape c hc).1 (pairwise_lt_range_filter N _)
    intro x
    constructor
    · intro hx
      have hxN : x < N := (hms_shape c hc).2 x hx
      rw [List.mem_filter]
      refine ⟨List.mem_range.2 hxN, ?_⟩
      simp only [decide_eq_true_eq]
      exact hwrite c hc x hxN hx
    · intro hx
      rw [List.mem_filter] at hx
      obtain ⟨hxr, hxv⟩ := hx
      have hxN := List.mem_range.1 hxr
      simp only [decide_eq_true_eq] at hxv
      obtain ⟨c', hc', hxc'⟩ := hcover x hxN
      have hv' := hwrite c' hc' x hxN hxc'
      have hcc : c' = c := by omega
      rw [← hcc]
      exact hxc'
  have hproto : s.prototypes.take (sortIndex s.index).length = s.prototypes := by
    rw [hslen, hidxlen, List.take_length]
  subst hs
  refine ⟨⟨htot, ?_, ?_, ?_, ?_, ?_, ?_, ?_⟩, hproto, htot, rfl, ?_⟩
  · rw [writeClasses_length, List.length_replicate, hmaplen]
  · rw [hmslen, hproto]
    rw [hslen, hidxlen]
  · rw [renumberFrom_length, hproto, hslen, hidxlen]
  · intro c hc
    rw [hmslen] at hc
    exact hmf' c hc
  · intro c hc
    rw [renumberFrom_length] at hc
    rw [renumberFrom_getD _ 0 c hc]
    exact (hms_getD_in c hc).symm
  · intro j hj
    obtain ⟨c, hc, hjc⟩ := hcover j hj
    have hv := hwrite c hc j hj hjc
    constructor
    · rw [hv]
      omega
    · rw [hv, hproto]
      rw [← hidxlen, ← hslen]
      omega
  · intro p hp
    exact hpN p (List.take_subset _ _ hp)
  · rw [hmslen, hslen, hidxlen, hmemlen]

/-! ### Truncation and the reachable-state invariant -/

theorem truncate_pres {sim : ℕ → ℕ → ℚ} {N : ℕ} {t : ℚ} {s s' : SCM} {k : ℕ}
    (hcons : Consistent N s) (hsep : ProtoSep sim t s)
    (h : SCM.truncate sim s k = some s') :
    Consistent N s' ∧ ProtoSep sim t s' ∧ s'.prototypes = s.prototypes.take k ∧
      s'.totalcount = N := by
  obtain ⟨htot, hmaplen, hmemlen, hidxlen, hmf, him, hbd, hpN⟩ := hcons
  unfold SCM.truncate at h
  split at h
  · exact absurd h (by simp)
  next s2 heq =>
    have hpN' : ∀ p ∈ ({ s with prototypes := s.prototypes.take k } : SCM).prototypes,
        p < N := by
      intro p hp
      exact hpN p (List.take_subset _ _ hp)
    obtain ⟨hcons2, hpr2, htot2, hth2, hmap2⟩ :=
      reassign_pres (s := { s with prototypes := s.prototypes.take k })
        htot hpN' heq
    obtain ⟨hcons3, hpr3, htot3, hth3, hml3⟩ := sort_pres hcons2 h
    refine ⟨hcons3, ?_, ?_, htot3⟩
    · unfold ProtoSep
      rw [hpr3, hpr2]
      exact hsep.sublist (List.take_sublist k s.prototypes)
    · rw [hpr3, hpr2]

theorem reach_invariant {sim : ℕ → ℕ → ℚ} {N : ℕ} {t : ℚ} {s : SCM}
    (hdiag : ∀ i < N, sim i i = 1) (ht : t ≤ 1) (h : Reach sim t N s) :
    Consistent N s ∧ ProtoSep sim t s := by
  induction h with
  | start hinit => exact initSCM_spec hdiag ht hinit
  | step_reassign hr heq ih =>
      obtain ⟨hcons, hsep⟩ := ih
      obtain ⟨h1, h2, h3, h4, h5, h6, h7, h8⟩ := hcons
      obtain ⟨hcons', hpr, _, _, _⟩ :=
        reassign_pres h1 h8 heq
      refine ⟨hcons', ?_⟩
      unfold ProtoSep
      rw [hpr]
      exact hsep
  | step_sort hr heq ih =>
      obtain ⟨hcons, hsep⟩ := ih
      obtain ⟨hcons', hpr, _, _, _⟩ := sort_pres hcons heq
      refine ⟨hcons', ?_⟩
      unfold ProtoSep
      rw [hpr]
      exact hsep
  | step_truncate hr heq ih =>
      obtain ⟨hcons, hsep⟩ := ih
      obtain ⟨hcons', hsep', _, _⟩ := truncate_pres hcons hsep heq
      exact ⟨hcons', hsep'⟩

theorem consistent_exactPartition {N : ℕ} {s : SCM} (hcons : Consistent N s) :
    exactPartition N s := by
  obtain ⟨htot, hmaplen, hmemlen, hidxlen, hmf, him, hbd, hpN⟩ := hcons
  have hmemiff : ∀ j < N, ∀ c < s.members.length,
      (j ∈ s.members.getD c [] ↔ s.map.getD j 0 = c + 1) := by
    intro j hj c hc
    rw [hmf c hc, List.mem_filter]
    constructor
    · intro hd
      have := hd.2
      simpa using this
    · intro hv
      refine ⟨List.mem_range.2 hj, ?_⟩
      simp only [decide_eq_true_eq]
      exact hv
  refine ⟨?_, ?_, hmemiff⟩
  · intro j hj
    obtain ⟨hb1, hb2⟩ := hbd j hj
    refine ⟨s.map.getD j 0 - 1, ⟨by rw [hmemlen]; omega, ?_⟩, ?_⟩
    · refine (hmemiff j hj _ (by rw [hmemlen]; omega)).2 ?_
      omega
    · intro c' hc'
      have := (hmemiff j hj c' hc'.1).1 hc'.2
      omega
  · intro c hc j hjm
    rw [hmf c hc] at hjm
    exact List.mem_range.1 (List.mem_of_mem_filter hjm)

theorem sort_total {N : ℕ} {s : SCM} (hcons : Consistent N s) :
    ∃ s', SCM.sort s = some s' := by
  unfold SCM.sort
  rw [if_pos (by rw [(sortIndex_perm s.index).length_eq, hcons.2.2.2.1])]
  exact ⟨_, rfl⟩

/-! ### Monotone class sizes of the greedy pass -/

theorem degreeIn_filter_le (sim : ℕ → ℕ → ℚ) (t : ℚ) (q : ℕ → Bool)
    (live : List ℕ) (i : ℕ) :
    degreeIn sim t (live.filter q) i ≤ degreeIn sim t live i := by
  unfold degreeIn
  exact List.Sublist.length_le (List.Sublist.filter _ (List.filter_sublist live))

theorem greedyM_length_eq (sim : ℕ → ℕ → ℚ) (t : ℚ) (live : List ℕ) :
    (greedyM sim t live).length = degreeIn sim t live (greedyCP sim t live) := rfl

theorem greedyCP_mem {sim : ℕ → ℕ → ℚ} {t : ℚ} {live : List ℕ} (hne : live ≠ []) :
    greedyCP sim t live ∈ live := by
  unfold greedyCP
  apply getD_mem
  have hmne : live.map (degreeIn sim t live) ≠ [] := by simpa using hne
  have h := argmaxL_lt_length hmne
  rwa [List.length_map] at h

theorem greedyCP_max_degree (sim : ℕ → ℕ → ℚ) (t : ℚ) {live : List ℕ}
    (hne : live ≠ []) :
    ∀ i ∈ live, degreeIn sim t live i ≤ degreeIn sim t live (greedyCP sim t live) := by
  intro i hi
  rcases List.mem_iff_getElem.1 hi with ⟨pos, hpos, rfl⟩
  have hlen : (live.map (degreeIn sim t live)).length = live.length :=
    List.length_map _ _
  have hle := getD_le_argmaxL (0 : ℕ) (l := live.map (degreeIn sim t live)) pos
    (by rw [hlen]; exact hpos)
  have hargl : argmaxL (live.map (degreeIn sim t live)) < live.length := by
    have hmne : live.map (degreeIn sim t live) ≠ [] := by simpa using hne
    have h := argmaxL_lt_length hmne
    rwa [hlen] at h
  rw [getD_map_in _ 0 0 hpos, getD_map_in _ 0 0 hargl] at hle
  rw [List.getD_eq_getElem _ _ hpos] at hle
  exact hle

theorem greedyGo_sizes (sim : ℕ → ℕ → ℚ) (t : ℚ) :
    ∀ (fuel : ℕ) (live protos : List ℕ) (membs : List (List ℕ))
      (assigned : List ℕ) (classno : ℕ) (B : ℕ) (P : List ℕ)
      (M : List (List ℕ)) (A : List ℕ),
      (∀ i ∈ live, degreeIn sim t live i ≤ B) →
      greedyGo sim t fuel live protos membs assigned classno = some (P, M, A) →
      ∃ T, M = membs ++ T ∧ (∀ x ∈ T.map List.length, x ≤ B) ∧
        List.Chain' (fun a b : ℕ => b ≤ a) (T.map List.length) := by
  intro fuel
  induction fuel with
  | zero =>
    intro live protos membs assigned classno B P M A hb hrun
    unfold greedyGo at hrun
    by_cases hl : live.isEmpty
    · rw [if_pos hl] at hrun
      have htup := Option.some.inj hrun
      injection htup with h1 h2
      injection h2 with h3 h4
      subst h3
      exact ⟨[], by simp, by simp, List.chain'_nil⟩
    · rw [if_neg hl] at hrun; cases hrun
  | succ f ih =>
    intro live protos membs assigned classno B P M A hb hrun
    unfold greedyGo at hrun
    by_cases hl : live.isEmpty
    · rw [if_pos hl] at hrun
      have htup := Option.some.inj hrun
      injection htup with h1 h2
      injection h2 with h3 h4
      subst h3
      exact ⟨[], by simp, by simp, List.chain'_nil⟩
    · rw [if_neg hl] at hrun
      by_cases hm : (greedyM sim t live).isEmpty
      · rw [if_pos hm] at hrun; cases hrun
      · rw [if_neg hm] at hrun
        have hlne : live ≠ [] := by simpa [List.isEmpty_iff] using hl
        have hnext : ∀ i ∈ greedyRest sim t live,
            degreeIn sim t (greedyRest sim t live) i ≤
              (greedyM sim t live).length := by
          intro i hi
          have hi' : i ∈ live := List.mem_of_mem_filter hi
          calc degreeIn sim t (greedyRest sim t live) i
              ≤ degreeIn sim t live i := degreeIn_filter_le sim t _ live i
            _ ≤ degreeIn sim t live (greedyCP sim t live) :=
                greedyCP_max_degree sim t hlne i hi'
            _ = (greedyM sim t live).length := (greedyM_length_eq sim t live).symm
        obtain ⟨T, hT, hTb, hTc⟩ := ih (greedyRest sim t live)
          (protos ++ [greedyCP sim t live]) (membs ++ [greedyM sim t live])
          (assignFrom 0 (greedyM sim t live) (classno + 1) assigned) (classno + 1)
          ((greedyM sim t live).length) P M A hnext hrun
        have hmB : (greedyM sim t live).length ≤ B := by
          rw [greedyM_length_eq]
          exact hb _ (greedyCP_mem hlne)
        refine ⟨greedyM sim t live :: T, ?_, ?_, ?_⟩
        · rw [hT]; simp
        · intro x hx
          rw [List.map_cons] at hx
          rcases List.mem_cons.1 hx with rfl | hx'
          · exact hmB
          · exact le_trans (hTb x hx') hmB
        · rw [List.map_cons, List.chain'_cons']
          refine ⟨?_, hTc⟩
          intro b hbmem
          exact hTb b (List.mem_of_mem_head? hbmem)

/-! ### The claims -/

/-- C1: for every well-formed `N×N` similarity matrix (symmetric, values
in `[0,1]`, unit diagonal) and threshold in `[0,1]`, after each of
creation, `reassign()`, `sort()` and `truncate(k)` completes (i.e. in
every reachable state of the primary Partition), the member sets form an
exact partition of `{0..N-1}` — every index in exactly one member set,
with no overlaps and no gaps — and the Assignment map agrees with the
member sets. -/
theorem claim_C1 (sim : ℕ → ℕ → ℚ) (t : ℚ) (N : ℕ) (s : SCM)
    (hWF : WellFormedSim sim N) (h0 : 0 ≤ t) (h1 : t ≤ 1)
    (hreach : Reach sim t N s) : exactPartition N s := by
  clear h0
  exact consistent_exactPartition (reach_invariant hWF.2.2 h1 hreach).1

theorem claim_C1_witness : exactPartition 4 scm9 :=
  claim_C1 sim9 (mkRat 1 2) 4 scm9 (by decide) (by decide) (by decide)
    (Reach.start (by decide))

/-- C2: evaluation refuting the claim that `sort()` reorders the
Prototype sequence to match the new numbering.  On `sim6` at threshold
`0.6`, `reassign()` makes class 2 the larger class, so `sort()` must swap
the classes; afterwards the first index entry's prototype is `3`, but
entry 0 of `self.prototypes` is still `0` (the array stays in discovery
order `[0, 3]`), so the Prototype sequence does not match the new
numbering. -/
theorem claim_C2_bug :
    (((initSCM sim6 6 (mkRat 3 5)).bind (SCM.reassign sim6)).bind SCM.sort).map
      (fun s => (s.prototypes.getD 0 99, (s.index.getD 0 dummyEntry).prototype))
      = some (0, 3) ∧ (0 : ℕ) ≠ 3 := by decide

/-- C3: evaluation refuting the claim that the secondary Class index₂ is
derived as in the primary bookkeeping.  With `M = 2`, `P = 1` and both
similarities `0.6`, both rows belong to class 1 (`map2 = [1,1]`, the
`np.where` tuple wraps `[0,1]`), yet the recorded `count` is
`len(members2[0])` — the length of the tuple, i.e. `1`, not `2` — and the
recorded `fraction` is `1/2`, not `1`. -/
theorem claim_C3_bug :
    augmentStep 2 [[mkRat 3 5], [mkRat 3 5]] = Except.ok augBug ∧
    augBug.map2 = [1, 1] ∧ augBug.members2 = [[[0, 1]]] ∧
    (augBug.index2.getD 0 dummyAug2).count = 1 ∧
    (augBug.index2.getD 0 dummyAug2).count ≠ 2 ∧
    ((List.range 2).filter (fun j => augBug.map2.getD j 0 = 1)).length = 2 ∧
    (augBug.index2.getD 0 dummyAug2).fraction = mkRat 1 2 := by decide

/-- C4: on every valid Partition over a well-formed non-empty similarity
matrix (any reachable state), `reassign()` completes without error, and
afterwards every index has a class in `1..K` — no unclassified (class 0)
state exists.  (In reachable states no class — in particular not the
highest-numbered one — can shrink to zero members, because each retained
prototype is its own unique nearest prototype; this is exactly why the
trailing `self.members[i]` read cannot go out of range.) -/
theorem claim_C4 (sim : ℕ → ℕ → ℚ) (t : ℚ) (N : ℕ) (s : SCM)
    (hWF : WellFormedSim sim N) (h1 : t ≤ 1) (hN : 0 < N)
    (hreach : Reach sim t N s) :
    ∃ s', SCM.reassign sim s = some s' ∧ s'.map.length = N ∧
      ∀ j < N, 1 ≤ s'.map.getD j 0 ∧ s'.map.getD j 0 ≤ s'.prototypes.length := by
  obtain ⟨hcons, hsep⟩ := reach_invariant hWF.2.2 h1 hreach
  obtain ⟨htot, hmaplen, hmemlen, hidxlen, hmf, him, hbd, hpN⟩ := hcons
  have hne : s.prototypes ≠ [] := by
    obtain ⟨ha, hb⟩ := hbd 0 hN
    intro e
    rw [e] at hb
    simp only [List.length_nil] at hb
    omega
  obtain ⟨r, hr⟩ := reassignCore_total hWF.1 hWF.2.2 h1 hsep hpN hne
  obtain ⟨newMap, membs, idx⟩ := r
  have hrun : ∃ s', SCM.reassign sim s = some s' := by
    unfold SCM.reassign
    rw [htot, hr]
    exact ⟨_, rfl⟩
  obtain ⟨s', hrun⟩ := hrun
  obtain ⟨hcons', hpr, _, _, _⟩ := reassign_pres htot hpN hrun
  exact ⟨s', hrun, hcons'.2.1, fun j hj => hcons'.2.2.2.2.2.2.1 j hj⟩

theorem claim_C4_witness :
    ∃ s', SCM.reassign sim9 scm9 = some s' ∧ s'.map.length = 4 ∧
      ∀ j < 4, 1 ≤ s'.map.getD j 0 ∧ s'.map.getD j 0 ≤ s'.prototypes.length :=
  claim_C4 sim9 (mkRat 1 2) 4 scm9 (by decide) (by decide) (by decide)
    (Reach.start (by decide))

/-- C5: for every reachable Partition over a well-formed similarity
matrix and every `k` with `1 ≤ k ≤ K`, `truncate(k)` completes, exactly
`k` classes exist afterwards (prototype, member and index sequences all
have length `k`), the retained Prototype sequence is the first `k`
entries of the prior one, and the `N` indices are exactly partitioned
among the `k` classes. -/
theorem claim_C5 (sim : ℕ → ℕ → ℚ) (t : ℚ) (N : ℕ) (s : SCM) (k : ℕ)
    (hWF : WellFormedSim sim N) (h1 : t ≤ 1)
    (hreach : Reach sim t N s) (hk1 : 1 ≤ k) (hk2 : k ≤ s.prototypes.length) :
    ∃ s', SCM.truncate sim s k = some s' ∧
      s'.prototypes = s.prototypes.take k ∧ s'.prototypes.length = k ∧
      s'.members.length = k ∧ s'.index.length = k ∧ exactPartition N s' := by
  obtain ⟨hcons, hsep⟩ := reach_invariant hWF.2.2 h1 hreach
  obtain ⟨htot, hmaplen, hmemlen, hidxlen, hmf, him, hbd, hpN⟩ := hcons
  have htakeN : ∀ p ∈ s.prototypes.take k, p < N := fun p hp =>
    hpN p (List.take_subset _ _ hp)
  have htakepair : List.Pairwise (fun a b => sim a b < t) (s.prototypes.take k) :=
    hsep.sublist (List.take_sublist k s.prototypes)
  have htakene : s.prototypes.take k ≠ [] := by
    intro e
    have hlen0 : (s.prototypes.take k).length = 0 := by rw [e]; rfl
    rw [List.length_take] at hlen0
    omega
  obtain ⟨r, hr⟩ := reassignCore_total hWF.1 hWF.2.2 h1 htakepair htakeN htakene
  obtain ⟨newMap, membs, idx⟩ := r
  have hrun : ∃ s2, SCM.reassign sim { s with prototypes := s.prototypes.take k }
      = some s2 := by
    unfold SCM.reassign
    dsimp only
    rw [htot, hr]
    exact ⟨_, rfl⟩
  obtain ⟨s2, hrun⟩ := hrun
  obtain ⟨hcons2, hpr2, htot2, hth2, hmap2⟩ :=
    reassign_pres (s := { s with prototypes := s.prototypes.take k })
      htot htakeN hrun
  obtain ⟨s3, hsort⟩ := sort_total hcons2
  obtain ⟨hcons3, hpr3, htot3, hth3, hml3⟩ := sort_pres hcons2 hsort
  have htr : SCM.truncate sim s k = some s3 := by
    unfold SCM.truncate
    rw [hrun]
    exact hsort
  have hpro : s3.prototypes = s.prototypes.take k := by rw [hpr3, hpr2]
  refine ⟨s3, htr, hpro, ?_, ?_, ?_, consistent_exactPartition hcons3⟩
  · rw [hpro, List.length_take]
    omega
  · rw [hcons3.2.2.1, hpro, List.length_take]
    omega
  · rw [hcons3.2.2.2.1, hpro, List.length_take]
    omega

theorem claim_C5_witness :
    ∃ s', SCM.truncate sim9 scm9 1 = some s' ∧
      s'.prototypes = scm9.prototypes.take 1 ∧ s'.prototypes.length = 1 ∧
      s'.members.length = 1 ∧ s'.index.length = 1 ∧ exactPartition 4 s' :=
  claim_C5 sim9 (mkRat 1 2) 4 scm9 1 (by decide) (by decide)
    (Reach.start (by decide)) (by decide) (by decide)

/-- C6: deterministic tie-breaking.  (a) In the greedy pass the selected
position is a valid position of maximal degree and every earlier live
position has strictly smaller degree (lowest remaining position wins
ties).  (b) In `reassign()` the class assigned to index `j` is the
1-based position of a prototype of maximal similarity to `j`, and every
lower-numbered prototype is strictly less similar (lowest class number
wins ties).  (c) The computation is deterministic: matrices with equal
entries give identical results for creation and reassignment. -/
theorem claim_C6 :
    (∀ (sim : ℕ → ℕ → ℚ) (t : ℚ) (live : List ℕ), live ≠ [] →
      argmaxL (live.map (degreeIn sim t live)) < live.length ∧
      (∀ i < live.length, (live.map (degreeIn sim t live)).getD i 0 ≤
        (live.map (degreeIn sim t live)).getD
          (argmaxL (live.map (degreeIn sim t live))) 0) ∧
      (∀ i < argmaxL (live.map (degreeIn sim t live)),
        (live.map (degreeIn sim t live)).getD i 0 <
        (live.map (degreeIn sim t live)).getD
          (argmaxL (live.map (degreeIn sim t live))) 0)) ∧
    (∀ (sim : ℕ → ℕ → ℚ) (protos : List ℕ) (N j : ℕ), j < N → protos ≠ [] →
      1 ≤ (reassignMap sim protos N).getD j 0 ∧
      (reassignMap sim protos N).getD j 0 ≤ protos.length ∧
      (∀ i < protos.length, sim (protos.getD i 0) j ≤
        sim (protos.getD ((reassignMap sim protos N).getD j 0 - 1) 0) j) ∧
      (∀ i < (reassignMap sim protos N).getD j 0 - 1,
        sim (protos.getD i 0) j <
        sim (protos.getD ((reassignMap sim protos N).getD j 0 - 1) 0) j)) ∧
    (∀ (sim sim' : ℕ → ℕ → ℚ) (t : ℚ) (N : ℕ) (s : SCM),
      (∀ i j, sim i j = sim' i j) →
      initSCM sim N t = initSCM sim' N t ∧
      SCM.reassign sim s = SCM.reassign sim' s) := by
  refine ⟨?_, ?_, ?_⟩
  · intro sim t live hne
    have hmlen : (live.map (degreeIn sim t live)).length = live.length :=
      List.length_map _ _
    have hmne : live.map (degreeIn sim t live) ≠ [] := by simpa using hne
    refine ⟨by rw [← hmlen]; exact argmaxL_lt_length hmne, ?_, ?_⟩
    · intro i hi
      exact getD_le_argmaxL 0 i (by rw [hmlen]; exact hi)
    · intro i hi
      exact getD_lt_argmaxL_of_lt 0 i hi
  · intro sim protos N j hj hne
    rw [reassignMap_getD sim protos hj]
    have hL : (protos.map (fun p => sim p j)).length = protos.length :=
      List.length_map _ _
    have hLne : protos.map (fun p => sim p j) ≠ [] := by simpa using hne
    have harg : argmaxL (protos.map (fun p => sim p j)) < protos.length := by
      rw [← hL]; exact argmaxL_lt_length hLne
    simp only [Nat.add_sub_cancel]
    refine ⟨by omega, by omega, ?_, ?_⟩
    · intro i hi
      have hle := getD_le_argmaxL (0 : ℚ) (l := protos.map (fun p => sim p j)) i
        (by rw [hL]; exact hi)
      rwa [getD_map_in _ 0 0 hi, getD_map_in _ 0 0 harg] at hle
    · intro i hi
      have hlt := getD_lt_argmaxL_of_lt (0 : ℚ)
        (l := protos.map (fun p => sim p j)) i hi
      rwa [getD_map_in _ 0 0 (lt_trans hi harg), getD_map_in _ 0 0 harg] at hlt
  · intro sim sim' t N s h
    have he : sim = sim' := funext (fun i => funext (fun j => h i j))
    subst he
    exact ⟨rfl, rfl⟩

theorem claim_C6_witness :
    argmaxL (([0, 1] : List ℕ).map (degreeIn sim9 (mkRat 1 2) [0, 1])) <
      ([0, 1] : List ℕ).length ∧
    1 ≤ (reassignMap sim9 [0, 2] 4).getD 1 0 :=
  ⟨(claim_C6.1 sim9 (mkRat 1 2) [0, 1] (by decide)).1,
   (claim_C6.2.1 sim9 [0, 2] 4 1 (by decide) (by decide)).1⟩

/-- C7: `reassign()` is idempotent on the Assignment map: if a call
completes, a second call on the result also completes and produces the
same Assignment map (the computation depends only on the similarity
matrix, the prototypes and the dimension, none of which `reassign()`
changes). -/
theorem claim_C7 (sim : ℕ → ℕ → ℚ) (s s1 : SCM)
    (h : SCM.reassign sim s = some s1) :
    ∃ s2, SCM.reassign sim s1 = some s2 ∧ s2.map = s1.map := by
  unfold SCM.reassign at h ⊢
  split at h
  · exact absurd h (by simp)
  next newMap membs idx heq =>
    have hs1 := Option.some.inj h
    subst hs1
    dsimp only
    rw [heq]
    exact ⟨_, rfl, rfl⟩

theorem claim_C7_witness :
    ∃ s2, SCM.reassign sim9 scm9 = some s2 ∧ s2.map = scm9.map :=
  claim_C7 sim9 scm9 scm9 (by decide)

/-- C8: `augment` raises a shape-mismatch error if and only if the
secondary data set's first dimension `M` differs from the
cross-similarity matrix's first dimension; the error reports exactly
those two dimensions; when the shape-mismatch error is raised — the check
precedes every assignment — the object is left exactly as it was, so the
primary Partition is unchanged and no secondary attributes are created;
and no path of `augment` ever mutates the primary Partition. -/
theorem claim_C8 (s : SCMFull) (M : ℕ) (simmat2 : List (List ℚ)) :
    ((∃ a b, augmentStep M simmat2 = .error (.shapeMismatch a b)) ↔
      M ≠ simmat2.length) ∧
    (∀ a b, augmentStep M simmat2 = .error (.shapeMismatch a b) →
      a = M ∧ b = simmat2.length) ∧
    (∀ a b, augmentStep M simmat2 = .error (.shapeMismatch a b) →
      augmentRun s M simmat2 = s) ∧
    (augmentRun s M simmat2).primary = s.primary := by
  have herr : ∀ a b, augmentStep M simmat2 = .error (.shapeMismatch a b) →
      M ≠ simmat2.length ∧ a = M ∧ b = simmat2.length := by
    intro a b hab
    unfold augmentStep at hab
    by_cases heq : M = simmat2.length
    · rw [if_pos heq] at hab
      by_cases h2 : (augMap2 simmat2).isEmpty
      · rw [if_pos h2] at hab
        injection hab with h3
        cases h3
      · rw [if_neg h2] at hab
        by_cases h4 : augP simmat2 ≤ (augMembers2 simmat2).length
        · rw [if_pos h4] at hab
          exact Except.noConfusion hab
        · rw [if_neg h4] at hab
          injection hab with h3
          cases h3
    · rw [if_neg heq] at hab
      injection hab with h3
      injection h3 with h5 h6
      exact ⟨heq, h5.symm, h6.symm⟩
  refine ⟨⟨?_, ?_⟩, ?_, ?_, ?_⟩
  · rintro ⟨a, b, hab⟩
    exact (herr a b hab).1
  · intro hne
    refine ⟨M, simmat2.length, ?_⟩
    unfold augmentStep
    rw [if_neg hne]
  · intro a b hab
    exact (herr a b hab).2
  · intro a b hab
    unfold augmentRun
    rw [if_neg (herr a b hab).1]
  · unfold augmentRun
    by_cases h1 : M = simmat2.length
    · rw [if_pos h1]
      by_cases h2 : (augMap2 simmat2).isEmpty
      · rw [if_pos h2]
      · rw [if_neg h2]
        by_cases h3 : augP simmat2 ≤ (augMembers2 simmat2).length
        · rw [if_pos h3]
        · rw [if_neg h3]
    · rw [if_neg h1]

theorem claim_C8_witness :
    ∃ a b, augmentStep 1 [[mkRat 1 2], [mkRat 1 2]] =
      Except.error (AugErr.shapeMismatch a b) :=
  (claim_C8 ⟨scm9, none, none, none, none, none, none, none⟩ 1
    [[mkRat 1 2], [mkRat 1 2]]).1.2 (by decide)

/-- C9: the spec's concrete scenario.  On the 4×4 matrix `sim9`
(`sim[0][1] = 0.9`, `sim[2][3] = 0.8`, other off-diagonal pairs `0.1`,
unit diagonal) at threshold `0.5`, the greedy pass produces exactly two
classes: class 1 with prototype `0` and members `{0,1}`, class 2 with
prototype `2` and members `{2,3}`, and Assignment map `[1,1,2,2]`. -/
theorem claim_C9 :
    initSCM sim9 4 (mkRat 1 2) = some scm9 ∧
    scm9.prototypes = [0, 2] ∧ scm9.members = [[0, 1], [2, 3]] ∧
    scm9.map = [1, 1, 2, 2] ∧ scm9.prototypes.length = 2 ∧
    (scm9.index.getD 0 dummyEntry).prototype = 0 ∧
    (scm9.index.getD 1 dummyEntry).prototype = 2 := by decide

/-- C10: for every well-formed similarity matrix and threshold `t ≤ 1`,
whenever the greedy pass completes, the class sizes are non-increasing in
discovery order: each selected prototype attains the maximum live degree
and live degrees can only shrink as rows and columns are removed. -/
theorem claim_C10 (sim : ℕ → ℕ → ℚ) (t : ℚ) (N : ℕ) (s : SCM)
    (hWF : WellFormedSim sim N) (h0 : 0 ≤ t) (h1 : t ≤ 1)
    (hinit : initSCM sim N t = some s) :
    ∀ c c', c ≤ c' → c' < s.members.length →
      (s.members.getD c' []).length ≤ (s.members.getD c []).length := by
  clear hWF h0 h1
  unfold initSCM at hinit
  split at hinit
  · exact absurd hinit (by simp)
  next protos membs assigned heq =>
    split at hinit
    · exact absurd hinit (by simp)
    next idx hm =>
      have hs := Option.some.inj hinit
      subst hs
      intro c c' hcc hc'
      dsimp only at hc' ⊢
      have hbound : ∀ i ∈ List.range N, degreeIn sim t (List.range N) i ≤ N := by
        intro i _
        unfold degreeIn
        calc (List.filter (fun j => decide (t ≤ sim i j)) (List.range N)).length
            ≤ (List.range N).length := List.length_filter_le _ _
          _ = N := List.length_range N
      obtain ⟨T, hT, hTb, hTc⟩ := greedyGo_sizes sim t N (List.range N) [] []
        (List.replicate N 0) 0 N protos membs assigned hbound heq
      rw [List.nil_append] at hT
      rw [← hT] at hTc
      rcases eq_or_lt_of_le hcc with rfl | hlt
      · exact le_refl _
      · haveI : IsTrans ℕ (fun a b : ℕ => b ≤ a) :=
          ⟨fun a b c ha hb => le_trans hb ha⟩
        have hpw := List.chain'_iff_pairwise.1 hTc
        have hb1 : c < (membs.map List.length).length := by
          rw [List.length_map]; omega
        have hb2 : c' < (membs.map List.length).length := by
          rw [List.length_map]; omega
        have hple := pairwise_getD 0 hpw hb1 hb2 hlt
        rwa [getD_map_in _ 0 [] (by omega : c < membs.length),
          getD_map_in _ 0 [] (by omega : c' < membs.length)] at hple

theorem claim_C10_witness :
    (scm9.members.getD 1 []).length ≤ (scm9.members.getD 0 []).length :=
  claim_C10 sim9 (mkRat 1 2) 4 scm9 (by decide) (by decide) (by decide)
    (by decide) 0 1 (by decide) (by decide)
